import Mathlib

/-!
Shallow embedding of the puzzle layout engine of the repository
(`src/lib/exporter.ts`, classes `CrosswordGenerator`, `ScrambleGenerator`,
`WordSearchGenerator`), together with proofs of the specification claims.

Modelling conventions:
* a grid cell is `Option Char`: `none` is the empty-string sentinel of the
  source, `some ch` a one-character string;
* the grid is a row-major `List (List Cell)`;
* coordinates are `Int`, because the source computes candidate start cells by
  subtraction and tests them against the bounds;
* JavaScript numbers occurring in scores are modelled as exact rationals, and
  the `-Infinity` score sentinel as `none : Option ℚ`;
* every call to `Math.random()` is modelled by an explicit oracle argument,
  and all theorems are quantified over all oracles.
-/

set_option maxHeartbeats 1600000

namespace WordPuzzle

/-- A grid cell: `none` models the empty-string sentinel of the source. -/
abbrev Cell := Option Char

/-- Row-major character matrix, the source field `grid : string[][]`. -/
abbrev Grid := List (List Cell)

/-- Source type `Direction`. -/
inductive Dir where
  | horizontal
  | vertical
  | diagonalDown
  | diagonalUp
  deriving DecidableEq, Repr

/-- Source interface `WordItem`. -/
structure WordItem where
  word : List Char
  definition : String
  deriving DecidableEq, Repr

/-- Source interface `PlacedWord`. -/
structure PlacedWord where
  word : List Char
  definition : String
  row : Int
  col : Int
  direction : Dir
  number : Nat
  deriving DecidableEq, Repr

/-- Source interface `ScrambleItem`. -/
structure ScrambleItem where
  original : List Char
  scrambled : List Char
  definition : String
  deriving DecidableEq, Repr

/-- Read `grid[r][c]`; the source algorithms only read in bounds. -/
def gcell (g : Grid) (r c : Int) : Cell :=
  if r < 0 ∨ c < 0 then none
  else (g.getD r.toNat []).getD c.toNat none

/-- Write `grid[r][c] = v`; the source algorithms only write in bounds. -/
def gset (g : Grid) (r c : Int) (v : Cell) : Grid :=
  if r < 0 ∨ c < 0 then g
  else g.set r.toNat ((g.getD r.toNat []).set c.toNat v)

/-- The fresh all-sentinel grid built by
`Array(height).fill(null).map(() => Array(width).fill(''))`. -/
def emptyGrid (height width : Nat) : Grid :=
  List.replicate height (List.replicate width (none : Cell))

/-- Shape invariant: the grid is an `height × width` matrix. -/
def WF (height width : Nat) (g : Grid) : Prop :=
  g.length = height ∧ ∀ rowl ∈ g, rowl.length = width

/-- Generator state: the fields `width`, `height`, `grid`, `placedWords` of the
source class `CrosswordGenerator`. -/
structure CW where
  width : Nat
  height : Nat
  grid : Grid
  placedWords : List PlacedWord
  deriving DecidableEq, Repr

/-- Source `CrosswordGenerator._canPlace`.  The source dispatches on
`direction === 'horizontal'`; the `else` branch is the vertical code path. -/
def canPlace (st : CW) (word : List Char) (row col : Int) (dir : Dir) : Bool :=
  match dir with
  | .horizontal =>
    if col < 0 ∨ (st.width : Int) < col + (word.length : Int) then false
    else if row < 0 ∨ (st.height : Int) ≤ row then false
    else
      ((List.range word.length).all fun i =>
        let cell := gcell st.grid row (col + (i : Int))
        (decide (cell = none ∨ cell = some (word.getD i ' '))) &&
        (if cell = none then
          (decide (¬ (0 < row)) || decide (gcell st.grid (row - 1) (col + (i : Int)) = none)) &&
          (decide (¬ (row < (st.height : Int) - 1)) ||
            decide (gcell st.grid (row + 1) (col + (i : Int)) = none))
        else true)) &&
      (decide (¬ (0 < col)) || decide (gcell st.grid row (col - 1) = none)) &&
      (decide (¬ (col + (word.length : Int) < (st.width : Int))) ||
        decide (gcell st.grid row (col + (word.length : Int)) = none))
  | _ =>
    if row < 0 ∨ (st.height : Int) < row + (word.length : Int) then false
    else if col < 0 ∨ (st.width : Int) ≤ col then false
    else
      ((List.range word.length).all fun i =>
        let cell := gcell st.grid (row + (i : Int)) col
        (decide (cell = none ∨ cell = some (word.getD i ' '))) &&
        (if cell = none then
          (decide (¬ (0 < col)) || decide (gcell st.grid (row + (i : Int)) (col - 1) = none)) &&
          (decide (¬ (col < (st.width : Int) - 1)) ||
            decide (gcell st.grid (row + (i : Int)) (col + 1) = none))
        else true)) &&
      (decide (¬ (0 < row)) || decide (gcell st.grid (row - 1) col = none)) &&
      (decide (¬ (row + (word.length : Int) < (st.height : Int))) ||
        decide (gcell st.grid (row + (word.length : Int)) col = none))

/-- The horizontal write loop of the source `_addWordToGrid`. -/
def writeH (g : Grid) (row col : Int) : List Char → Grid
  | [] => g
  | ch :: rest => writeH (gset g row col (some ch)) row (col + 1) rest

/-- The vertical write loop of the source `_addWordToGrid`. -/
def writeV (g : Grid) (row col : Int) : List Char → Grid
  | [] => g
  | ch :: rest => writeV (gset g row col (some ch)) (row + 1) col rest

/-- The grid mutation of the source `_addWordToGrid`: the horizontal branch or
the vertical (`else`) branch. -/
def writeWord (g : Grid) (word : List Char) (row col : Int) (dir : Dir) : Grid :=
  if dir = .horizontal then writeH g row col word else writeV g row col word

/-- Source `CrosswordGenerator._addWordToGrid`: write the letters, push the
`PlacedWord` record (`number` is the placeholder `0`, real numbering is assigned
after generation). -/
def addWordToGrid (st : CW) (word : List Char) (defn : String) (row col : Int)
    (dir : Dir) : CW :=
  { st with
    grid := writeWord st.grid word row col dir
    placedWords := st.placedWords ++ [⟨word, defn, row, col, dir, 0⟩] }

/-- Candidate intersection placements collected by the scan in the source
`_placeWord`: for every letter index, every grid cell holding that letter, the
horizontal and the vertical placement anchored there, kept when `_canPlace`
approves. -/
def candidates (st : CW) (word : List Char) : List (Int × Int × Dir) :=
  (List.range word.length).flatMap fun (i : Nat) =>
    (List.range st.height).flatMap fun (r : Nat) =>
      (List.range st.width).flatMap fun (c : Nat) =>
        if gcell st.grid (r : Int) (c : Int) = some (word.getD i ' ') then
          (if canPlace st word (r : Int) ((c : Int) - (i : Int)) .horizontal then
            [((r : Int), (c : Int) - (i : Int), Dir.horizontal)] else []) ++
          (if canPlace st word ((r : Int) - (i : Int)) (c : Int) .vertical then
            [((r : Int) - (i : Int), (c : Int), Dir.vertical)] else [])
        else []

/-- Source `_countIntersectionsForPlacement`. -/
def countIntersections (st : CW) (word : List Char) (row col : Int) (dir : Dir) : Nat :=
  match dir with
  | .horizontal =>
    ((List.range word.length).filter fun (i : Nat) =>
      decide (0 ≤ row) && decide (row < (st.height : Int)) &&
      decide (0 ≤ col + (i : Int)) && decide (col + (i : Int) < (st.width : Int)) &&
      decide (gcell st.grid row (col + (i : Int)) = some (word.getD i ' '))).length
  | _ =>
    ((List.range word.length).filter fun (i : Nat) =>
      decide (0 ≤ row + (i : Int)) && decide (row + (i : Int) < (st.height : Int)) &&
      decide (0 ≤ col) && decide (col < (st.width : Int)) &&
      decide (gcell st.grid (row + (i : Int)) col = some (word.getD i ' '))).length

/-- All in-range cell coordinates, in the row-major order of the source's nested
scan loops. -/
def allCells (height width : Nat) : List (Int × Int) :=
  (List.range height).flatMap fun (r : Nat) =>
    (List.range width).map fun (c : Nat) => ((r : Int), (c : Int))

/-- The occupied cells, in scan order (the loop of the source `_boundingBox`). -/
def occList (st : CW) : List (Int × Int) :=
  (allCells st.height st.width).filter fun p => (gcell st.grid p.1 p.2).isSome

/-- Source `_boundingBox` as `(minR, maxR, minC, maxC)`; `none` models the `null`
result for an all-empty grid. -/
def boundingBox (st : CW) : Option (Int × Int × Int × Int) :=
  match occList st with
  | [] => none
  | p :: ps =>
    some (ps.foldl
      (fun b q => (min b.1 q.1, max b.2.1 q.1, min b.2.2.1 q.2, max b.2.2.2 q.2))
      (p.1, p.1, p.2, p.2))

/-- Source `_boundingBoxWithPlacement`: extend the current box by the extent of
the placement (the `Infinity` initialisers make the `null` case the raw extent). -/
def boundingBoxWithPlacement (word : List Char) (row col : Int) (dir : Dir)
    (current : Option (Int × Int × Int × Int)) : Int × Int × Int × Int :=
  match dir, current with
  | .horizontal, some (a, b, c, d) =>
    (min a row, max b row, min c col, max d (col + (word.length : Int) - 1))
  | .horizontal, none => (row, row, col, col + (word.length : Int) - 1)
  | _, some (a, b, c, d) =>
    (min a row, max b (row + (word.length : Int) - 1), min c col, max d col)
  | _, none => (row, row + (word.length : Int) - 1, col, col)

/-- Area of a `(minR, maxR, minC, maxC)` box, `0` for `none`
(the source computes `beforeArea` this way). -/
def boxArea : Option (Int × Int × Int × Int) → Int
  | some (a, b, c, d) => (b - a + 1) * (d - c + 1)
  | none => 0

/-- Source `_bboxAreaDeltaIfPlaced`. -/
def bboxAreaDelta (st : CW) (word : List Char) (row col : Int) (dir : Dir) : Int :=
  let before := boundingBox st
  let after := boundingBoxWithPlacement word row col dir before
  boxArea (some after) - boxArea before

/-- Source `_placementCenter`. -/
def placementCenter (word : List Char) (row col : Int) (dir : Dir) : ℚ × ℚ :=
  match dir with
  | .horizontal => ((row : ℚ), (col : ℚ) + ((word.length : ℚ) - 1) / 2)
  | _ => ((row : ℚ) + ((word.length : ℚ) - 1) / 2, (col : ℚ))

/-- Source `_scorePlacement` (JavaScript numbers modelled as exact rationals). -/
def scorePlacement (st : CW) (word : List Char) (row col : Int) (dir : Dir) : ℚ :=
  let inters : ℚ := (countIntersections st word row col dir : ℚ)
  let bboxDelta : ℚ := (bboxAreaDelta st word row col dir : ℚ)
  let centerR : ℚ := ((st.height : ℚ) - 1) / 2
  let centerC : ℚ := ((st.width : ℚ) - 1) / 2
  let pc := placementCenter word row col dir
  let distToCenter : ℚ := |pc.1 - centerR| + |pc.2 - centerC|
  inters * 120 - bboxDelta * 8 - distToCenter * (1 / 5)

/-- Source `CrosswordGenerator._placeWord`.  `firstDirH` models the coin flip for
the very first word, `pick` the random draw among the top candidates. -/
def placeWord (st : CW) (firstDirH : Bool) (pick : Nat) (wi : WordItem) : CW :=
  let word := wi.word
  if st.placedWords.length = 0 then
    let startRow : Int := ((st.height / 2 : Nat) : Int)
    let startCol : Int := Int.fdiv ((st.width : Int) - (word.length : Int)) 2
    let firstDir : Dir := if firstDirH then .horizontal else .vertical
    let firstRow : Int :=
      if firstDirH then startRow else Int.fdiv ((st.height : Int) - (word.length : Int)) 2
    let firstCol : Int := if firstDirH then startCol else ((st.width / 2 : Nat) : Int)
    if canPlace st word firstRow firstCol firstDir then
      addWordToGrid st word wi.definition firstRow firstCol firstDir
    else if canPlace st word startRow startCol .horizontal then
      addWordToGrid st word wi.definition startRow startCol .horizontal
    else st
  else
    let cands := candidates st word
    if cands.isEmpty then st
    else
      let scored := List.insertionSort (fun a b =>
        scorePlacement st word b.1 b.2.1 b.2.2 ≤ scorePlacement st word a.1 a.2.1 a.2.2) cands
      let pickFrom := min 5 scored.length
      let choice := scored.getD (pick % pickFrom) (0, 0, .horizontal)
      addWordToGrid st word wi.definition choice.1 choice.2.1 choice.2.2

/-- Source `occupied` count in `_scoreCurrentLayout`. -/
def occupiedCount (st : CW) : Nat := (occList st).length

/-- Source `_scoreCurrentLayout`; `none` models the `-Infinity` score of an
attempt that placed no word. -/
def scoreCurrentLayout (st : CW) : Option ℚ :=
  if st.placedWords.length = 0 then none
  else
    let occupied : ℚ := (occupiedCount st : ℚ)
    let bboxArea : Int := boxArea (boundingBox st)
    let coverage : ℚ := (bboxArea : ℚ) / ((st.width : ℚ) * (st.height : ℚ))
    let density : ℚ := if 0 < bboxArea then occupied / (bboxArea : ℚ) else 0
    some ((st.placedWords.length : ℚ) * 700 + occupied * 20 + density * 2000 + coverage * 300)

/-- Source `_cropToBoundingBox`. -/
def cropToBoundingBox (st : CW) (margin : Nat) : CW :=
  match boundingBox st with
  | none => st
  | some (minR, maxR, minC, maxC) =>
    let minR2 : Int := max 0 (minR - (margin : Int))
    let maxR2 : Int := min ((st.height : Int) - 1) (maxR + (margin : Int))
    let minC2 : Int := max 0 (minC - (margin : Int))
    let maxC2 : Int := min ((st.width : Int) - 1) (maxC + (margin : Int))
    let nextGrid : Grid :=
      ((st.grid.drop minR2.toNat).take (maxR2 + 1 - minR2).toNat).map
        fun rowl => (rowl.drop minC2.toNat).take (maxC2 + 1 - minC2).toNat
    { width := (nextGrid.headD []).length
      height := nextGrid.length
      grid := nextGrid
      placedWords := st.placedWords.map fun w =>
        { w with row := w.row - minR2, col := w.col - minC2 } }

/-- The first-seen distinct start cells of a placement list (the `seen`-set
loop of the source `_assignClueNumbers`). -/
def startsOf (pws : List PlacedWord) : List (Int × Int) :=
  pws.foldl
    (fun (acc : List (Int × Int)) w =>
      if (w.row, w.col) ∈ acc then acc else acc ++ [(w.row, w.col)]) []

/-- Row-major order on start cells, the comparator
`(a.r - b.r) || (a.c - b.c)` of the source. -/
def lexLe (a b : Int × Int) : Prop := a.1 < b.1 ∨ (a.1 = b.1 ∧ a.2 ≤ b.2)

instance : DecidableRel lexLe := by
  unfold lexLe DecidableRel
  infer_instance

/-- Source `_assignClueNumbers`: first-seen distinct start cells, sorted by row
then column, numbered from 1; the `?? 0` default of the source is the `none`
branch of the lookup. -/
def assignClueNumbers (pws : List PlacedWord) : List PlacedWord :=
  let sorted := List.insertionSort lexLe (startsOf pws)
  pws.map fun w =>
    match sorted.findIdx? fun p => decide (p = (w.row, w.col)) with
    | some i => { w with number := i + 1 }
    | none => { w with number := 0 }

/-- Recursion worker for `pickPerm`; the first argument is fuel, instantiated
with the length of the list. -/
def pickPermAux {α : Type} (sel : Nat → Nat) : Nat → Nat → List α → List α
  | 0, _, _ => []
  | _ + 1, _, [] => []
  | fuel + 1, step, a :: as =>
    let i := sel step % (a :: as).length
    (a :: as).getD i a :: pickPermAux sel fuel (step + 1) ((a :: as).eraseIdx i)

/-- One oracle-driven selection pass producing a permutation of the input; this
models the outcome of the source's randomized-comparator `sort`, which is a
randomness-dependent permutation of the list. -/
def pickPerm {α : Type} (sel : Nat → Nat) (step : Nat) (l : List α) : List α :=
  pickPermAux sel l.length step l

/-- Per-attempt word order: descending length with oracle-chosen tie order; the
outcome of the source's sort with the random tie-breaking comparator. -/
def attemptWords (sel : Nat → Nat) (words : List WordItem) : List WordItem :=
  List.insertionSort (fun a b => b.word.length ≤ a.word.length) (pickPerm sel 0 words)

/-- Random source of the crossword engine: per attempt and word step, the
shuffle draws, the first-word coin flips and the top-candidate picks. -/
structure Oracle where
  shuffle : Nat → Nat → Nat
  firstDirH : Nat → Nat → Bool
  pick : Nat → Nat → Nat

/-- The state a `generate` attempt starts from: fresh empty grid, no words. -/
def initCW (width height : Nat) : CW :=
  ⟨width, height, emptyGrid height width, []⟩

/-- One attempt of the source `generate` loop body: fresh grid, per-attempt word
order, greedy placement word by word. -/
def runAttempt (o : Oracle) (k width height : Nat) (words : List WordItem) : CW :=
  ((attemptWords (o.shuffle k) words).enum).foldl
    (fun st iw => placeWord st (o.firstDirH k iw.1) (o.pick k iw.1) iw.2)
    (initCW width height)

/-- JavaScript `>` on attempt scores, where `none` is `-Infinity`. -/
def nsGT : Option ℚ → Option ℚ → Bool
  | none, _ => false
  | some _, none => true
  | some a, some b => decide (b < a)

/-- The 120-attempt loop of the source `generate`: the running state is the
current (most recent) attempt together with the best attempt and score so far
(`this.grid`/`this.placedWords`, `bestGrid`/`bestPlaced`, `bestScore`). -/
def attemptFold (o : Oracle) (width height : Nat) (words : List WordItem) :
    CW × Option CW × Option ℚ :=
  (List.range 120).foldl
    (fun acc k =>
      let st := runAttempt o k width height words
      let s := scoreCurrentLayout st
      if nsGT s acc.2.2 then (st, some st, s) else (st, acc.2.1, acc.2.2))
    (initCW width height, none, none)

/-- The state selected by the source `generate` before post-processing:
`this.grid = bestGrid ?? this.grid` and `this.placedWords = bestPlaced`. -/
def generateCore (o : Oracle) (width height : Nat) (words : List WordItem) : CW :=
  let r := attemptFold o width height words
  match r.2.1 with
  | some b => b
  | none => { r.1 with placedWords := [] }

/-- Source `CrosswordGenerator.generate`: best of 120 attempts, cropped to the
bounding box with margin 1, then clue-numbered. -/
def generate (o : Oracle) (width height : Nat) (words : List WordItem) :
    Grid × List PlacedWord :=
  let st := cropToBoundingBox (generateCore o width height words) 1
  (st.grid, assignClueNumbers st.placedWords)

/-- Word-search generator state (source class `WordSearchGenerator`). -/
structure WS where
  width : Nat
  height : Nat
  grid : Grid
  placedWords : List PlacedWord
  deriving DecidableEq, Repr

/-- The direction list of the source `WordSearchGenerator._placeWord`. -/
def wsDirs : List Dir := [.horizontal, .vertical, .diagonalDown, .diagonalUp]

/-- Per-step displacement of each direction in the source walk. -/
def dirStep (d : Dir) (r c : Int) : Int × Int :=
  match d with
  | .horizontal => (r, c + 1)
  | .vertical => (r + 1, c)
  | .diagonalDown => (r + 1, c + 1)
  | .diagonalUp => (r - 1, c + 1)

/-- Per-letter displacement of each direction (the closed form of iterating
`dirStep`). -/
def dirDelta : Dir → Int × Int
  | .horizontal => (0, 1)
  | .vertical => (1, 0)
  | .diagonalDown => (1, 1)
  | .diagonalUp => (-1, 1)

/-- The cell reached after `i` steps of the walk from `(row, col)` in
direction `d`. -/
def wsPosAt (d : Dir) (row col : Int) (i : Nat) : Int × Int :=
  (row + (i : Int) * (dirDelta d).1, col + (i : Int) * (dirDelta d).2)

/-- The walking loop of the source `WordSearchGenerator._canPlace`. -/
def wsCanPlaceAux (height width : Nat) (g : Grid) (dir : Dir) :
    List Char → Int → Int → Bool
  | [], _, _ => true
  | ch :: rest, r, c =>
    if r < 0 ∨ (height : Int) ≤ r ∨ c < 0 ∨ (width : Int) ≤ c then false
    else if (gcell g r c).isSome ∧ ¬ (gcell g r c = some ch) then false
    else wsCanPlaceAux height width g dir rest (dirStep dir r c).1 (dirStep dir r c).2

/-- Source `WordSearchGenerator._canPlace`: bounds and same-letter-or-empty only. -/
def wsCanPlace (st : WS) (word : List Char) (row col : Int) (dir : Dir) : Bool :=
  wsCanPlaceAux st.height st.width st.grid dir word row col

/-- The walking write loop of the source `WordSearchGenerator._addWordToGrid`. -/
def wsWriteAux (dir : Dir) : Grid → List Char → Int → Int → Grid
  | g, [], _, _ => g
  | g, ch :: rest, r, c =>
    wsWriteAux dir (gset g r c (some ch)) rest (dirStep dir r c).1 (dirStep dir r c).2

/-- Source `WordSearchGenerator._addWordToGrid`: write the letters and push the
record; `number` is assigned immediately as `placedWords.length + 1`. -/
def wsAddWordToGrid (st : WS) (word : List Char) (defn : String) (row col : Int)
    (dir : Dir) : WS :=
  { st with
    grid := wsWriteAux dir st.grid word row col
    placedWords := st.placedWords ++ [⟨word, defn, row, col, dir, st.placedWords.length + 1⟩] }

/-- Random source of the word-search engine: per word index and try, the
direction, row and column draws, and per cell the fill letter draw. -/
structure WSOracle where
  dir : Nat → Nat → Nat
  row : Nat → Nat → Nat
  col : Nat → Nat → Nat
  fill : Int → Int → Nat

/-- The `(direction, row, col)` draw of try `t` for word index `k`
(`Math.floor(Math.random() * n)` draws modelled as oracle values reduced mod `n`). -/
def wsDraw (o : WSOracle) (st : WS) (k t : Nat) : Dir × Int × Int :=
  (wsDirs.getD (o.dir k t % wsDirs.length) .horizontal,
   ((o.row k t % st.height : Nat) : Int),
   ((o.col k t % st.width : Nat) : Int))

/-- The 50-try loop of the source `WordSearchGenerator._placeWord`; the first
argument is the number of tries left, the second the current try index. -/
def wsTry (o : WSOracle) (st : WS) (k : Nat) (wi : WordItem) : Nat → Nat → WS
  | 0, _ => st
  | rest + 1, t =>
    let d := wsDraw o st k t
    if wsCanPlace st wi.word d.2.1 d.2.2 d.1 then
      wsAddWordToGrid st wi.word wi.definition d.2.1 d.2.2 d.1
    else wsTry o st k wi rest (t + 1)

/-- Source `WordSearchGenerator._placeWord`: up to 50 random draws. -/
def wsPlaceWord (o : WSOracle) (st : WS) (k : Nat) (wi : WordItem) : WS :=
  wsTry o st k wi 50 0

/-- The fixed 33-letter alphabet of the source `_fillEmptySpaces`. -/
def wsAlphabet : List Char := "АБВГДЕЁЖЗИЙКЛМНОПРСТУФХЦЧШЩЪЫЬЭЮЯ".toList

/-- The per-cell body of the source `_fillEmptySpaces` loop: a sentinel cell
receives an oracle-chosen alphabet letter, any other cell is left alone. -/
def fillStep (o : WSOracle) (g : Grid) (p : Int × Int) : Grid :=
  if gcell g p.1 p.2 = none then
    gset g p.1 p.2 (some (wsAlphabet.getD (o.fill p.1 p.2 % wsAlphabet.length) 'А'))
  else g

/-- Source `_fillEmptySpaces`; the two nested loops are flattened over
`allCells`. -/
def wsFillEmptySpaces (o : WSOracle) (st : WS) : WS :=
  { st with grid := (allCells st.height st.width).foldl (fillStep o) st.grid }

/-- Source `WordSearchGenerator.generate`. -/
def wsGenerate (o : WSOracle) (width height : Nat) (words : List WordItem) :
    Grid × List PlacedWord :=
  let sorted := List.insertionSort (fun a b => b.word.length ≤ a.word.length) words
  let st := sorted.enum.foldl (fun st kw => wsPlaceWord o st kw.1 kw.2)
    (⟨width, height, emptyGrid height width, []⟩ : WS)
  let st2 := wsFillEmptySpaces o st
  (st2.grid, st2.placedWords)

/-- The destructuring swap `[letters[i], letters[j]] = [letters[j], letters[i]]`
of the source. -/
def listSwap {α : Type} (l : List α) (i j : Nat) : List α :=
  match l[i]?, l[j]? with
  | some a, some b => (l.set i b).set j a
  | _, _ => l

/-- One Fisher–Yates pass of the source (loop `i` from `letters.length - 1` down
to `1`, `j = Math.floor(Math.random() * (i + 1))`). -/
def fyShuffle (sel : Nat → Nat) (letters : List Char) : List Char :=
  ((List.range' 1 (letters.length - 1)).reverse).foldl
    (fun l i => listSwap l i (sel i % (i + 1)))
    letters

/-- The bounded reshuffle loop of the source `ScrambleGenerator.generate`
(`while (scrambledWord === word && attempts < 5)`); the first argument is the
number of attempts left (`5 - attempts`), the second the attempt counter. -/
def scrambleRetryAux (sel : Nat → Nat → Nat) (word : List Char) :
    Nat → Nat → List Char → List Char
  | 0, _, current => current
  | rest + 1, attempts, current =>
    if current = word then
      scrambleRetryAux sel word rest (attempts + 1) (fyShuffle (sel attempts) current)
    else current

/-- The reshuffle loop entered with `attempts = 0`. -/
def scrambleRetry (sel : Nat → Nat → Nat) (word : List Char)
    (current : List Char) : List Char :=
  scrambleRetryAux sel word 5 0 current

/-- Source `ScrambleGenerator.generate`. -/
def scrambleGenerate (o : Nat → Nat → Nat → Nat) (words : List WordItem) :
    List ScrambleItem :=
  words.enum.map fun kitem =>
    let word := kitem.2.word
    let first := fyShuffle (o kitem.1 0) word
    let scrambled :=
      if 1 < word.length then scrambleRetry (fun a => o kitem.1 (a + 1)) word first
      else first
    ⟨word, scrambled, kitem.2.definition⟩

/-! ### Grid infrastructure lemmas -/

/-- In-bounds predicate for a cell of an `height × width` grid. -/
def inB (height width : Nat) (r c : Int) : Prop :=
  0 ≤ r ∧ r < (height : Int) ∧ 0 ≤ c ∧ c < (width : Int)

instance (height width : Nat) (r c : Int) : Decidable (inB height width r c) := by
  unfold inB; infer_instance

/-- The cell covered by letter `i` of a crossword placement. -/
def cwPos (row col : Int) (dir : Dir) (i : Nat) : Int × Int :=
  match dir with
  | .horizontal => (row, col + (i : Int))
  | _ => (row + (i : Int), col)

/-- The two neighbour cells orthogonal to the word's direction. -/
def perpNeighbors (dir : Dir) (r c : Int) : List (Int × Int) :=
  match dir with
  | .horizontal => [(r - 1, c), (r + 1, c)]
  | _ => [(r, c - 1), (r, c + 1)]

/-- The cell immediately before the first letter and the cell immediately after
the last letter along the word's axis. -/
def endCaps (word : List Char) (row col : Int) (dir : Dir) : List (Int × Int) :=
  match dir with
  | .horizontal => [(row, col - 1), (row, col + (word.length : Int))]
  | _ => [(row - 1, col), (row + (word.length : Int), col)]

/-- The four validator conditions exactly as the specification words them:
all covered cells in bounds; each covered cell empty or already the letter;
perpendicular neighbours of newly written cells empty when on the grid; end
caps empty or off-grid. -/
def canPlaceSpec (st : CW) (word : List Char) (row col : Int) (dir : Dir) : Prop :=
  (∀ i < word.length,
    inB st.height st.width (cwPos row col dir i).1 (cwPos row col dir i).2) ∧
  (∀ i < word.length,
    gcell st.grid (cwPos row col dir i).1 (cwPos row col dir i).2 = none ∨
    gcell st.grid (cwPos row col dir i).1 (cwPos row col dir i).2 =
      some (word.getD i ' ')) ∧
  (∀ i < word.length,
    gcell st.grid (cwPos row col dir i).1 (cwPos row col dir i).2 = none →
    ∀ p ∈ perpNeighbors dir (cwPos row col dir i).1 (cwPos row col dir i).2,
      inB st.height st.width p.1 p.2 → gcell st.grid p.1 p.2 = none) ∧
  (∀ p ∈ endCaps word row col dir,
    inB st.height st.width p.1 p.2 → gcell st.grid p.1 p.2 = none)

instance (st : CW) (word : List Char) (row col : Int) (dir : Dir) :
    Decidable (canPlaceSpec st word row col dir) := by
  unfold canPlaceSpec; infer_instance

instance : IsTotal (Int × Int) lexLe := ⟨by
  intro a b
  unfold lexLe
  omega⟩

instance : IsTrans (Int × Int) lexLe := ⟨by
  intro a b c
  unfold lexLe
  omega⟩

instance : Inhabited PlacedWord := ⟨⟨[], "", 0, 0, .horizontal, 0⟩⟩

/-- Invariant of the word-search state: well-formed grid, every placed word's
walk in bounds with its letters on the grid, numbers sequential in placement
order, and every non-empty cell on some placed word's walk. -/
def WSInv (st : WS) : Prop :=
  WF st.height st.width st.grid ∧
  (∀ pw ∈ st.placedWords, ∀ i < pw.word.length,
    inB st.height st.width (wsPosAt pw.direction pw.row pw.col i).1
      (wsPosAt pw.direction pw.row pw.col i).2 ∧
    gcell st.grid (wsPosAt pw.direction pw.row pw.col i).1
      (wsPosAt pw.direction pw.row pw.col i).2 = some (pw.word.getD i ' ')) ∧
  (∀ k < st.placedWords.length, (st.placedWords.getD k default).number = k + 1) ∧
  (∀ r c : Int, gcell st.grid r c ≠ none →
    ∃ pw ∈ st.placedWords, ∃ i < pw.word.length,
      wsPosAt pw.direction pw.row pw.col i = (r, c))

/-- Try `t` of the 50-draw loop is accepted by the word-search validator. -/
def wsApproved (o : WSOracle) (st : WS) (k : Nat) (wi : WordItem) (t : Nat) : Prop :=
  wsCanPlace st wi.word (wsDraw o st k t).2.1 (wsDraw o st k t).2.2
    (wsDraw o st k t).1 = true

instance (o : WSOracle) (st : WS) (k : Nat) (wi : WordItem) (t : Nat) :
    Decidable (wsApproved o st k wi t) := by
  unfold wsApproved
  infer_instance

/-- The all-zero word-search oracle used by concrete witnesses. -/
def wsOracleZ : WSOracle := ⟨fun _ _ => 0, fun _ _ => 0, fun _ _ => 0, fun _ _ => 0⟩

/-- The cell covered by letter `i` of a placed crossword word. -/
def cwPosOf (w : PlacedWord) (i : Nat) : Int × Int :=
  cwPos w.row w.col w.direction i

/-- Two placed words intersect: some letter of each lies on one shared cell,
and the letters agree there. -/
def sharesCell (w1 w2 : PlacedWord) : Prop :=
  ∃ i1, i1 < w1.word.length ∧ ∃ i2, i2 < w2.word.length ∧
    cwPosOf w1 i1 = cwPosOf w2 i2 ∧ w1.word.getD i1 ' ' = w2.word.getD i2 ' '

/-- Invariant of the crossword attempt state, relative to the input word list:
well-formed grid; every placed word's letters on the grid in bounds; every
non-empty cell covered by a placed word; every placed word after the first
intersecting an earlier one; every placed word drawn from the input list. -/
def CWInv (ws : List WordItem) (st : CW) : Prop :=
  WF st.height st.width st.grid ∧
  (∀ pw ∈ st.placedWords, ∀ i < pw.word.length,
    inB st.height st.width (cwPosOf pw i).1 (cwPosOf pw i).2 ∧
    gcell st.grid (cwPosOf pw i).1 (cwPosOf pw i).2 = some (pw.word.getD i ' ')) ∧
  (∀ r c : Int, gcell st.grid r c ≠ none →
    ∃ pw ∈ st.placedWords, ∃ i, i < pw.word.length ∧ cwPosOf pw i = (r, c)) ∧
  (∀ k, 1 ≤ k → k < st.placedWords.length →
    ∃ j < k, sharesCell (st.placedWords.getD j default)
      (st.placedWords.getD k default)) ∧
  (∀ pw ∈ st.placedWords, ∃ wi ∈ ws, pw.word = wi.word ∧ pw.definition = wi.definition)

/-- The attempt loop of the source `generate` stopped after `m` of the 120
attempts; `attemptFold` is the full loop. -/
def attemptFoldUpTo (o : Oracle) (width height : Nat) (ws : List WordItem)
    (m : Nat) : CW × Option CW × Option ℚ :=
  (List.range m).foldl
    (fun acc k =>
      let st := runAttempt o k width height ws
      let s := scoreCurrentLayout st
      if nsGT s acc.2.2 then (st, some st, s) else (st, acc.2.1, acc.2.2))
    (initCW width height, none, none)

/-- A fixed random source: zero draws, horizontal first-word coin. -/
def oracleZ : Oracle := ⟨fun _ _ => 0, fun _ _ => true, fun _ _ => 0⟩

/-- A concrete one-word crossword state (3×3, `АБ` across the middle row). -/
def cwSt0 : CW := addWordToGrid (initCW 3 3) ['А', 'Б'] "a" 1 0 .horizontal

/-- The concrete two-word input of the crossword witnesses. -/
def cwWords : List WordItem := [⟨['А', 'Б'], "a"⟩, ⟨['Б', 'А'], "b"⟩]

theorem gcell_emptyGrid (h w : Nat) (r c : Int) : gcell (emptyGrid h w) r c = none := by
  unfold gcell emptyGrid
  split
  · rfl
  · simp only [List.getD_eq_getElem?_getD, List.getElem?_replicate]
    split <;> simp

theorem WF_emptyGrid (h w : Nat) : WF h w (emptyGrid h w) := by
  constructor
  · simp [emptyGrid]
  · intro rowl hrow
    have := List.eq_of_mem_replicate hrow
    simp [this]

theorem WF_gset (h w : Nat) (g : Grid) (r c : Int) (v : Cell) (hwf : WF h w g) :
    WF h w (gset g r c v) := by
  obtain ⟨hlen, hrows⟩ := hwf
  unfold gset
  split
  · exact ⟨hlen, hrows⟩
  · rcases Nat.lt_or_ge r.toNat g.length with hr | hr
    · refine ⟨by simp [hlen], ?_⟩
      intro rowl hrow
      rcases List.mem_or_eq_of_mem_set hrow with hmem | heq
      · exact hrows rowl hmem
      · subst heq
        rw [List.length_set, List.getD_eq_getElem _ _ hr]
        exact hrows _ (List.getElem_mem hr)
    · rw [List.set_eq_of_length_le hr]
      exact ⟨hlen, hrows⟩

theorem rowLen_of_WF {h w : Nat} {g : Grid} (hwf : WF h w g) {n : Nat}
    (hn : n < g.length) : (g.getD n []).length = w := by
  rw [List.getD_eq_getElem _ _ hn]
  exact hwf.2 _ (List.getElem_mem hn)

theorem gcell_gset_same (h w : Nat) (g : Grid) (r c : Int) (v : Cell)
    (hwf : WF h w g) (hb : inB h w r c) :
    gcell (gset g r c v) r c = v := by
  obtain ⟨hr0, hrh, hc0, hcw⟩ := hb
  have hnot : ¬ (r < 0 ∨ c < 0) := by omega
  have hrn : r.toNat < g.length := by rw [hwf.1]; omega
  have hrow : (g.getD r.toNat []).length = w := rowLen_of_WF hwf hrn
  have hcn : c.toNat < (g.getD r.toNat []).length := by rw [hrow]; omega
  rw [List.getD_eq_getElem?_getD] at hcn
  unfold gset gcell
  rw [if_neg hnot, if_neg hnot]
  simp only [List.getD_eq_getElem?_getD]
  rw [List.getElem?_set_self hrn, Option.getD_some, List.getElem?_set_self hcn,
    Option.getD_some]

theorem gcell_gset_of_ne (g : Grid) (r c r' c' : Int) (v : Cell)
    (hne : r ≠ r' ∨ c ≠ c') :
    gcell (gset g r c v) r' c' = gcell g r' c' := by
  unfold gset gcell
  split
  · rfl
  · rename_i h1
    split
    · rfl
    · rename_i h2
      push_neg at h1 h2
      by_cases hrr : r.toNat = r'.toNat
      · have hreq : r = r' := by omega
        subst hreq
        have hcc : c ≠ c' := by
          rcases hne with h | h
          · exact absurd rfl h
          · exact h
        have hccn : c.toNat ≠ c'.toNat := by omega
        by_cases hrn : r.toNat < g.length
        · simp only [List.getD_eq_getElem?_getD]
          rw [List.getElem?_set_self hrn, Option.getD_some, List.getElem?_set_ne hccn]
        · rw [List.set_eq_of_length_le (Nat.le_of_not_lt hrn)]
      · simp only [List.getD_eq_getElem?_getD]
        rw [List.getElem?_set_ne hrr]

theorem gcell_of_not_inB (h w : Nat) (g : Grid) (r c : Int)
    (hwf : WF h w g) (hb : ¬ inB h w r c) : gcell g r c = none := by
  unfold gcell
  split
  · rfl
  · rename_i h1
    push_neg at h1
    unfold inB at hb
    push_neg at hb
    by_cases hrn : r.toNat < g.length
    · have hrh : r < (h : Int) := by
        have := hrn
        rw [hwf.1] at this
        omega
      have hcw : (w : Int) ≤ c := hb h1.1 hrh h1.2
      have hrow : (g.getD r.toNat []).length = w := rowLen_of_WF hwf hrn
      rw [List.getD_eq_getElem?_getD, List.getElem?_eq_none (by omega), Option.getD_none]
    · rw [List.getD_eq_getElem?_getD g, List.getElem?_eq_none (Nat.le_of_not_lt hrn)]
      rfl

theorem gcell_gset_self_or (g : Grid) (r c : Int) (v : Cell) :
    gcell (gset g r c v) r c = v ∨ gcell (gset g r c v) r c = gcell g r c := by
  unfold gset gcell
  split
  · right; rfl
  · rename_i h1
    by_cases hrn : r.toNat < g.length
    · by_cases hcn : c.toNat < (g.getD r.toNat []).length
      · left
        rw [List.getD_eq_getElem?_getD] at hcn
        simp only [List.getD_eq_getElem?_getD]
        rw [List.getElem?_set_self hrn, Option.getD_some, List.getElem?_set_self hcn,
          Option.getD_some]
      · right
        simp only [List.getD_eq_getElem?_getD]
        rw [List.getElem?_set_self hrn, Option.getD_some]
        rw [List.getD_eq_getElem?_getD] at hcn
        rw [List.set_eq_of_length_le (Nat.le_of_not_lt hcn)]
    · right
      rw [List.set_eq_of_length_le (Nat.le_of_not_lt hrn)]

/-! ### Write-loop lemmas -/

theorem writeH_wf (h w : Nat) (word : List Char) : ∀ (g : Grid) (row col : Int),
    WF h w g → WF h w (writeH g row col word) := by
  induction word with
  | nil => intro g row col hwf; exact hwf
  | cons ch rest ih =>
    intro g row col hwf
    exact ih _ row (col + 1) (WF_gset h w g row col (some ch) hwf)

theorem writeV_wf (h w : Nat) (word : List Char) : ∀ (g : Grid) (row col : Int),
    WF h w g → WF h w (writeV g row col word) := by
  induction word with
  | nil => intro g row col hwf; exact hwf
  | cons ch rest ih =>
    intro g row col hwf
    exact ih _ (row + 1) col (WF_gset h w g row col (some ch) hwf)

theorem gcell_writeH_off (word : List Char) : ∀ (g : Grid) (row col r c : Int),
    (r ≠ row ∨ c < col ∨ col + (word.length : Int) ≤ c) →
    gcell (writeH g row col word) r c = gcell g r c := by
  induction word with
  | nil => intro g row col r c _; rfl
  | cons ch rest ih =>
    intro g row col r c hoff
    show gcell (writeH (gset g row col (some ch)) row (col + 1) rest) r c = _
    rw [ih _ row (col + 1) r c (by
      rcases hoff with h | h | h
      · exact Or.inl h
      · exact Or.inr (Or.inl (by omega))
      · refine Or.inr (Or.inr ?_)
        simp only [List.length_cons] at h
        push_cast at h ⊢
        omega)]
    exact gcell_gset_of_ne g row col r c (some ch) (by
      rcases hoff with h | h | h
      · exact Or.inl (Ne.symm h)
      · exact Or.inr (by omega)
      · refine Or.inr (by
          simp only [List.length_cons] at h
          push_cast at h
          omega))

theorem gcell_writeV_off (word : List Char) : ∀ (g : Grid) (row col r c : Int),
    (c ≠ col ∨ r < row ∨ row + (word.length : Int) ≤ r) →
    gcell (writeV g row col word) r c = gcell g r c := by
  induction word with
  | nil => intro g row col r c _; rfl
  | cons ch rest ih =>
    intro g row col r c hoff
    show gcell (writeV (gset g row col (some ch)) (row + 1) col rest) r c = _
    rw [ih _ (row + 1) col r c (by
      rcases hoff with h | h | h
      · exact Or.inl h
      · exact Or.inr (Or.inl (by omega))
      · refine Or.inr (Or.inr ?_)
        simp only [List.length_cons] at h
        push_cast at h ⊢
        omega)]
    exact gcell_gset_of_ne g row col r c (some ch) (by
      rcases hoff with h | h | h
      · exact Or.inr (Ne.symm h)
      · exact Or.inl (by omega)
      · refine Or.inl (by
          simp only [List.length_cons] at h
          push_cast at h
          omega))

theorem gcell_writeH_on (h w : Nat) (word : List Char) : ∀ (g : Grid) (row col : Int),
    WF h w g → 0 ≤ row → row < (h : Int) → 0 ≤ col →
    col + (word.length : Int) ≤ (w : Int) →
    ∀ i < word.length,
      gcell (writeH g row col word) row (col + (i : Int)) = some (word.getD i ' ') := by
  induction word with
  | nil =>
    intro g row col _ _ _ _ _ i hi
    exact absurd hi (by simp)
  | cons ch rest ih =>
    intro g row col hwf hr0 hrh hc0 hlen i hi
    simp only [List.length_cons] at hlen
    push_cast at hlen
    show gcell (writeH (gset g row col (some ch)) row (col + 1) rest) row (col + (i : Int)) = _
    match i with
    | 0 =>
      rw [gcell_writeH_off rest _ row (col + 1) row (col + ((0 : Nat) : Int)) (by
        push_cast
        omega)]
      push_cast
      rw [add_zero]
      rw [gcell_gset_same h w g row col (some ch) hwf ⟨hr0, hrh, hc0, by omega⟩]
      rfl
    | j + 1 =>
      have := ih (gset g row col (some ch)) row (col + 1)
        (WF_gset h w g row col (some ch) hwf) hr0 hrh (by omega)
        (by omega)
        j (by simpa using Nat.lt_of_succ_lt_succ hi)
      have harith : col + 1 + (j : Int) = col + ((j + 1 : Nat) : Int) := by push_cast; omega
      rw [harith] at this
      rw [this]
      rfl

theorem gcell_writeV_on (h w : Nat) (word : List Char) : ∀ (g : Grid) (row col : Int),
    WF h w g → 0 ≤ col → col < (w : Int) → 0 ≤ row →
    row + (word.length : Int) ≤ (h : Int) →
    ∀ i < word.length,
      gcell (writeV g row col word) (row + (i : Int)) col = some (word.getD i ' ') := by
  induction word with
  | nil =>
    intro g row col _ _ _ _ _ i hi
    exact absurd hi (by simp)
  | cons ch rest ih =>
    intro g row col hwf hc0 hcw hr0 hlen i hi
    simp only [List.length_cons] at hlen
    push_cast at hlen
    show gcell (writeV (gset g row col (some ch)) (row + 1) col rest) (row + (i : Int)) col = _
    match i with
    | 0 =>
      rw [gcell_writeV_off rest _ (row + 1) col (row + ((0 : Nat) : Int)) col (by
        push_cast
        omega)]
      push_cast
      rw [add_zero]
      rw [gcell_gset_same h w g row col (some ch) hwf ⟨hr0, by omega, hc0, hcw⟩]
      rfl
    | j + 1 =>
      have := ih (gset g row col (some ch)) (row + 1) col
        (WF_gset h w g row col (some ch) hwf) hc0 hcw (by omega)
        (by omega)
        j (by simpa using Nat.lt_of_succ_lt_succ hi)
      have harith : row + 1 + (j : Int) = row + ((j + 1 : Nat) : Int) := by push_cast; omega
      rw [harith] at this
      rw [this]
      rfl

theorem gcell_writeH_on_or (word : List Char) : ∀ (g : Grid) (row col : Int) (i : Nat),
    i < word.length →
    gcell (writeH g row col word) row (col + (i : Int)) = some (word.getD i ' ') ∨
    gcell (writeH g row col word) row (col + (i : Int)) = gcell g row (col + (i : Int)) := by
  induction word with
  | nil => intro g row col i hi; exact absurd hi (by simp)
  | cons ch rest ih =>
    intro g row col i hi
    simp only [writeH]
    match i with
    | 0 =>
      rw [gcell_writeH_off rest _ row (col + 1) row (col + ((0 : Nat) : Int)) (by
        push_cast
        omega)]
      simp only [Nat.cast_zero, add_zero, List.getD_cons_zero]
      exact gcell_gset_self_or g row col (some ch)
    | j + 1 =>
      have harith : col + 1 + (j : Int) = col + ((j + 1 : Nat) : Int) := by push_cast; omega
      rcases ih (gset g row col (some ch)) row (col + 1) j
        (by simpa using Nat.lt_of_succ_lt_succ hi) with hcase | hcase
      · left
        rw [harith] at hcase
        simpa only [List.getD_cons_succ] using hcase
      · right
        rw [harith] at hcase
        rw [hcase]
        exact gcell_gset_of_ne g row col row (col + ((j + 1 : Nat) : Int)) (some ch)
          (Or.inr (by push_cast; omega))

theorem gcell_writeV_on_or (word : List Char) : ∀ (g : Grid) (row col : Int) (i : Nat),
    i < word.length →
    gcell (writeV g row col word) (row + (i : Int)) col = some (word.getD i ' ') ∨
    gcell (writeV g row col word) (row + (i : Int)) col = gcell g (row + (i : Int)) col := by
  induction word with
  | nil => intro g row col i hi; exact absurd hi (by simp)
  | cons ch rest ih =>
    intro g row col i hi
    simp only [writeV]
    match i with
    | 0 =>
      rw [gcell_writeV_off rest _ (row + 1) col (row + ((0 : Nat) : Int)) col (by
        push_cast
        omega)]
      simp only [Nat.cast_zero, add_zero, List.getD_cons_zero]
      exact gcell_gset_self_or g row col (some ch)
    | j + 1 =>
      have harith : row + 1 + (j : Int) = row + ((j + 1 : Nat) : Int) := by push_cast; omega
      rcases ih (gset g row col (some ch)) (row + 1) col j
        (by simpa using Nat.lt_of_succ_lt_succ hi) with hcase | hcase
      · left
        rw [harith] at hcase
        simpa only [List.getD_cons_succ] using hcase
      · right
        rw [harith] at hcase
        rw [hcase]
        exact gcell_gset_of_ne g row col (row + ((j + 1 : Nat) : Int)) col (some ch)
          (Or.inl (by push_cast; omega))

/-! ### The validator contract (claim C2) -/

theorem ite_false_left {P : Prop} [Decidable P] {x : Bool} :
    ((if P then false else x) = true) ↔ (¬ P ∧ x = true) := by
  split <;> simp [*]

theorem ite_bool_true {P : Prop} [Decidable P] {x : Bool} :
    ((if P then x else true) = true) ↔ (P → x = true) := by
  split <;> simp [*]

theorem canPlaceH_eq (st : CW) (word : List Char) (row col : Int) :
    canPlace st word row col .horizontal = true ↔
      (¬ (col < 0 ∨ (st.width : Int) < col + (word.length : Int)) ∧
       ¬ (row < 0 ∨ (st.height : Int) ≤ row) ∧
       ((∀ i < word.length,
         (gcell st.grid row (col + (i : Int)) = none ∨
          gcell st.grid row (col + (i : Int)) = some (word.getD i ' ')) ∧
         (gcell st.grid row (col + (i : Int)) = none →
           (¬ 0 < row ∨ gcell st.grid (row - 1) (col + (i : Int)) = none) ∧
           (¬ row < (st.height : Int) - 1 ∨
             gcell st.grid (row + 1) (col + (i : Int)) = none))) ∧
        (¬ 0 < col ∨ gcell st.grid row (col - 1) = none)) ∧
       (¬ col + (word.length : Int) < (st.width : Int) ∨
         gcell st.grid row (col + (word.length : Int)) = none)) := by
  unfold canPlace
  simp only [ite_false_left, Bool.and_eq_true, List.all_eq_true, List.mem_range,
    Bool.or_eq_true, decide_eq_true_eq, ite_bool_true]

theorem canPlaceV_eq (st : CW) (word : List Char) (row col : Int) (dir : Dir)
    (hdir : ¬ dir = .horizontal) :
    canPlace st word row col dir = true ↔
      (¬ (row < 0 ∨ (st.height : Int) < row + (word.length : Int)) ∧
       ¬ (col < 0 ∨ (st.width : Int) ≤ col) ∧
       ((∀ i < word.length,
         (gcell st.grid (row + (i : Int)) col = none ∨
          gcell st.grid (row + (i : Int)) col = some (word.getD i ' ')) ∧
         (gcell st.grid (row + (i : Int)) col = none →
           (¬ 0 < col ∨ gcell st.grid (row + (i : Int)) (col - 1) = none) ∧
           (¬ col < (st.width : Int) - 1 ∨
             gcell st.grid (row + (i : Int)) (col + 1) = none))) ∧
        (¬ 0 < row ∨ gcell st.grid (row - 1) col = none)) ∧
       (¬ row + (word.length : Int) < (st.height : Int) ∨
         gcell st.grid (row + (word.length : Int)) col = none)) := by
  unfold canPlace
  match dir with
  | .horizontal => exact absurd rfl hdir
  | .vertical =>
    simp only [ite_false_left, Bool.and_eq_true, List.all_eq_true, List.mem_range,
      Bool.or_eq_true, decide_eq_true_eq, ite_bool_true]
  | .diagonalDown =>
    simp only [ite_false_left, Bool.and_eq_true, List.all_eq_true, List.mem_range,
      Bool.or_eq_true, decide_eq_true_eq, ite_bool_true]
  | .diagonalUp =>
    simp only [ite_false_left, Bool.and_eq_true, List.all_eq_true, List.mem_range,
      Bool.or_eq_true, decide_eq_true_eq, ite_bool_true]

theorem canPlaceH_iff_spec (st : CW) (word : List Char) (row col : Int) (hw : word ≠ []) :
    canPlace st word row col .horizontal = true ↔
      canPlaceSpec st word row col .horizontal := by
  have hlen : 0 < word.length := List.length_pos.mpr hw
  rw [canPlaceH_eq]
  unfold canPlaceSpec cwPos perpNeighbors endCaps inB
  constructor
  · rintro ⟨h1, h2, ⟨hall, hleft⟩, hright⟩
    push_neg at h1 h2
    obtain ⟨hc0, hcw⟩ := h1
    obtain ⟨hr0, hrh⟩ := h2
    refine ⟨?_, ?_, ?_, ?_⟩
    · intro i hi
      dsimp only
      refine ⟨hr0, hrh, by omega, by omega⟩
    · intro i hi
      exact (hall i hi).1
    · intro i hi hnone p hp
      dsimp only at hnone ⊢
      simp only [List.mem_cons, List.not_mem_nil, or_false, List.mem_singleton] at hp
      rcases hp with rfl | rfl
      · rintro ⟨hp1, hp2, hp3, hp4⟩
        exact (((hall i hi).2 hnone).1).resolve_left (by omega)
      · rintro ⟨hp1, hp2, hp3, hp4⟩
        dsimp only at hp1 hp2 hp3 hp4
        exact (((hall i hi).2 hnone).2).resolve_left (by omega)
    · intro p hp
      simp only [List.mem_cons, List.not_mem_nil, or_false, List.mem_singleton] at hp
      rcases hp with rfl | rfl
      · rintro ⟨hp1, hp2, hp3, hp4⟩
        dsimp only at hp1 hp2 hp3 hp4 ⊢
        exact hleft.resolve_left (by omega)
      · rintro ⟨hp1, hp2, hp3, hp4⟩
        dsimp only at hp1 hp2 hp3 hp4 ⊢
        exact hright.resolve_left (by omega)
  · rintro ⟨hbounds, hcompat, hperp, hcaps⟩
    have hb0 := hbounds 0 hlen
    have hbl := hbounds (word.length - 1) (by omega)
    dsimp only at hb0 hbl
    have hcast : ((word.length - 1 : Nat) : Int) = (word.length : Int) - 1 := by
      omega
    rw [hcast] at hbl
    refine ⟨by omega, by omega, ⟨?_, ?_⟩, ?_⟩
    · intro i hi
      refine ⟨hcompat i hi, ?_⟩
      intro hnone
      constructor
      · by_cases hrow : 0 < row
        · right
          refine hperp i hi hnone (row - 1, col + (i : Int)) (by simp) ?_
          dsimp only
          have hbi := hbounds i hi
          dsimp only at hbi
          exact ⟨by omega, by omega, by omega, by omega⟩
        · left; exact hrow
      · by_cases hrow : row < (st.height : Int) - 1
        · right
          refine hperp i hi hnone (row + 1, col + (i : Int)) (by simp) ?_
          dsimp only
          have hbi := hbounds i hi
          dsimp only at hbi
          exact ⟨by omega, by omega, by omega, by omega⟩
        · left; exact hrow
    · by_cases hcol : 0 < col
      · right
        refine hcaps (row, col - 1) (by simp) ?_
        dsimp only
        exact ⟨by omega, by omega, by omega, by omega⟩
      · left; exact hcol
    · by_cases hcol : col + (word.length : Int) < (st.width : Int)
      · right
        refine hcaps (row, col + (word.length : Int)) (by simp) ?_
        dsimp only
        exact ⟨by omega, by omega, by omega, by omega⟩
      · left; exact hcol

theorem canPlaceV_iff_spec (st : CW) (word : List Char) (row col : Int) (hw : word ≠ []) :
    canPlace st word row col .vertical = true ↔
      canPlaceSpec st word row col .vertical := by
  have hlen : 0 < word.length := List.length_pos.mpr hw
  rw [canPlaceV_eq st word row col .vertical (by simp)]
  unfold canPlaceSpec cwPos perpNeighbors endCaps inB
  constructor
  · rintro ⟨h1, h2, ⟨hall, hup⟩, hdown⟩
    push_neg at h1 h2
    obtain ⟨hr0, hrh⟩ := h1
    obtain ⟨hc0, hcw⟩ := h2
    refine ⟨?_, ?_, ?_, ?_⟩
    · intro i hi
      dsimp only
      refine ⟨by omega, by omega, hc0, hcw⟩
    · intro i hi
      exact (hall i hi).1
    · intro i hi hnone p hp
      dsimp only at hnone ⊢
      simp only [List.mem_cons, List.not_mem_nil, or_false, List.mem_singleton] at hp
      rcases hp with rfl | rfl
      · rintro ⟨hp1, hp2, hp3, hp4⟩
        exact (((hall i hi).2 hnone).1).resolve_left (by omega)
      · rintro ⟨hp1, hp2, hp3, hp4⟩
        dsimp only at hp1 hp2 hp3 hp4
        exact (((hall i hi).2 hnone).2).resolve_left (by omega)
    · intro p hp
      simp only [List.mem_cons, List.not_mem_nil, or_false, List.mem_singleton] at hp
      rcases hp with rfl | rfl
      · rintro ⟨hp1, hp2, hp3, hp4⟩
        dsimp only at hp1 hp2 hp3 hp4 ⊢
        exact hup.resolve_left (by omega)
      · rintro ⟨hp1, hp2, hp3, hp4⟩
        dsimp only at hp1 hp2 hp3 hp4 ⊢
        exact hdown.resolve_left (by omega)
  · rintro ⟨hbounds, hcompat, hperp, hcaps⟩
    have hb0 := hbounds 0 hlen
    have hbl := hbounds (word.length - 1) (by omega)
    dsimp only at hb0 hbl
    have hcast : ((word.length - 1 : Nat) : Int) = (word.length : Int) - 1 := by
      omega
    rw [hcast] at hbl
    refine ⟨by omega, by omega, ⟨?_, ?_⟩, ?_⟩
    · intro i hi
      refine ⟨hcompat i hi, ?_⟩
      intro hnone
      constructor
      · by_cases hcol : 0 < col
        · right
          refine hperp i hi hnone (row + (i : Int), col - 1) (by simp) ?_
          dsimp only
          have hbi := hbounds i hi
          dsimp only at hbi
          exact ⟨by omega, by omega, by omega, by omega⟩
        · left; exact hcol
      · by_cases hcol : col < (st.width : Int) - 1
        · right
          refine hperp i hi hnone (row + (i : Int), col + 1) (by simp) ?_
          dsimp only
          have hbi := hbounds i hi
          dsimp only at hbi
          exact ⟨by omega, by omega, by omega, by omega⟩
        · left; exact hcol
    · by_cases hrow : 0 < row
      · right
        refine hcaps (row - 1, col) (by simp) ?_
        dsimp only
        exact ⟨by omega, by omega, by omega, by omega⟩
      · left; exact hrow
    · by_cases hrow : row + (word.length : Int) < (st.height : Int)
      · right
        refine hcaps (row + (word.length : Int), col) (by simp) ?_
        dsimp only
        exact ⟨by omega, by omega, by omega, by omega⟩
      · left; exact hrow

theorem writeH_preserve (st : CW) (word : List Char) (row col : Int)
    (hcp : canPlace st word row col .horizontal = true) :
    ∀ r c, gcell st.grid r c ≠ none →
      gcell (writeH st.grid row col word) r c = gcell st.grid r c := by
  intro r c hne
  by_cases hoff : r ≠ row ∨ c < col ∨ col + (word.length : Int) ≤ c
  · exact gcell_writeH_off word st.grid row col r c hoff
  · push_neg at hoff
    obtain ⟨hr, hc1, hc2⟩ := hoff
    have hilt : (c - col).toNat < word.length := by omega
    have hc : c = col + ((c - col).toNat : Int) := by omega
    rw [hr, hc] at hne ⊢
    obtain ⟨_, _, ⟨hall, _⟩, _⟩ := (canPlaceH_eq st word row col).mp hcp
    rcases (hall _ hilt).1 with hnone | hsome
    · exact absurd hnone hne
    · rcases gcell_writeH_on_or word st.grid row col (c - col).toNat hilt with hcase | hcase
      · rw [hcase, hsome]
      · exact hcase

theorem writeV_preserve (st : CW) (word : List Char) (row col : Int)
    (hcp : canPlace st word row col .vertical = true) :
    ∀ r c, gcell st.grid r c ≠ none →
      gcell (writeV st.grid row col word) r c = gcell st.grid r c := by
  intro r c hne
  by_cases hoff : c ≠ col ∨ r < row ∨ row + (word.length : Int) ≤ r
  · exact gcell_writeV_off word st.grid row col r c hoff
  · push_neg at hoff
    obtain ⟨hcq, hr1, hr2⟩ := hoff
    have hilt : (r - row).toNat < word.length := by omega
    have hr : r = row + ((r - row).toNat : Int) := by omega
    rw [hcq, hr] at hne ⊢
    obtain ⟨_, _, ⟨hall, _⟩, _⟩ := (canPlaceV_eq st word row col .vertical (by simp)).mp hcp
    rcases (hall _ hilt).1 with hnone | hsome
    · exact absurd hnone hne
    · rcases gcell_writeV_on_or word st.grid row col (r - row).toNat hilt with hcase | hcase
      · rw [hcase, hsome]
      · exact hcase

/-- C2: the crossword validator `_canPlace` returns `true` exactly when the four
specification conditions hold (all covered cells in bounds; each covered cell
empty or already carrying the letter; perpendicular neighbours of newly written
cells empty whenever on the grid; end caps empty or off-grid), and a `true`
verdict guarantees that writing the word changes no previously non-empty cell.
The check is a pure function of the grid, so it mutates nothing. -/
theorem c2_canPlace_spec (st : CW) (word : List Char) (row col : Int) (dir : Dir)
    (hdir : dir = .horizontal ∨ dir = .vertical) (hw : word ≠ []) :
    (canPlace st word row col dir = true ↔ canPlaceSpec st word row col dir) ∧
    (canPlace st word row col dir = true →
      ∀ r c, gcell st.grid r c ≠ none →
        gcell (writeWord st.grid word row col dir) r c = gcell st.grid r c) := by
  rcases hdir with rfl | rfl
  · refine ⟨canPlaceH_iff_spec st word row col hw, ?_⟩
    intro hcp r c
    unfold writeWord
    rw [if_pos rfl]
    exact writeH_preserve st word row col hcp r c
  · refine ⟨canPlaceV_iff_spec st word row col hw, ?_⟩
    intro hcp r c
    unfold writeWord
    rw [if_neg (by simp)]
    exact writeV_preserve st word row col hcp r c

/-- Witness for C2: on a concrete 2×3 empty grid the validator accepts the
two-letter word at the origin, and the theorem then yields the specification
conditions for it. -/
theorem c2_canPlace_spec_witness :
    canPlace ⟨3, 2, emptyGrid 2 3, []⟩ ['А','Б'] 0 0 .horizontal = true ∧
    canPlaceSpec ⟨3, 2, emptyGrid 2 3, []⟩ ['А','Б'] 0 0 .horizontal := by
  refine ⟨by decide, ?_⟩
  exact ((c2_canPlace_spec ⟨3, 2, emptyGrid 2 3, []⟩ ['А','Б'] 0 0 .horizontal
    (Or.inl rfl) (by decide)).1).mp (by decide)

theorem startsOf_go_nodup (pws : List PlacedWord) :
    ∀ acc : List (Int × Int), acc.Nodup →
      (pws.foldl (fun acc w =>
        if (w.row, w.col) ∈ acc then acc else acc ++ [(w.row, w.col)]) acc).Nodup := by
  induction pws with
  | nil => intro acc h; exact h
  | cons w rest ih =>
    intro acc h
    simp only [List.foldl_cons]
    split
    · exact ih acc h
    · rename_i hmem
      refine ih _ ?_
      rw [← List.concat_eq_append]
      exact h.concat hmem

theorem startsOf_nodup (pws : List PlacedWord) : (startsOf pws).Nodup :=
  startsOf_go_nodup pws [] List.nodup_nil

theorem startsOf_go_mem (pws : List PlacedWord) :
    ∀ (acc : List (Int × Int)) (p : Int × Int),
      (p ∈ pws.foldl (fun acc w =>
        if (w.row, w.col) ∈ acc then acc else acc ++ [(w.row, w.col)]) acc ↔
       p ∈ acc ∨ ∃ w ∈ pws, p = (w.row, w.col)) := by
  induction pws with
  | nil => intro acc p; simp
  | cons w rest ih =>
    intro acc p
    simp only [List.foldl_cons]
    split
    · rename_i hmem
      rw [ih]
      constructor
      · rintro (h | h)
        · exact Or.inl h
        · exact Or.inr (by

            obtain ⟨u, hu, hp⟩ := h
            exact ⟨u, List.mem_cons_of_mem _ hu, hp⟩)
      · rintro (h | ⟨u, hu, hp⟩)
        · exact Or.inl h
        · rcases List.mem_cons.mp hu with rfl | hu2
          · left; rw [hp]; exact hmem
          · right; exact ⟨u, hu2, hp⟩
    · rename_i hmem
      rw [ih]
      simp only [List.mem_append, List.mem_cons, List.not_mem_nil, or_false]
      constructor
      · rintro ((h | h) | h)
        · exact Or.inl h
        · exact Or.inr ⟨w, Or.inl rfl, h⟩
        · obtain ⟨u, hu, hp⟩ := h
          exact Or.inr ⟨u, Or.inr hu, hp⟩
      · rintro (h | ⟨u, hu | hu, hp⟩)
        · exact Or.inl (Or.inl h)
        · subst hu
          exact Or.inl (Or.inr hp)
        · exact Or.inr ⟨u, hu, hp⟩

theorem startsOf_mem (pws : List PlacedWord) (p : Int × Int) :
    p ∈ startsOf pws ↔ ∃ w ∈ pws, p = (w.row, w.col) := by
  unfold startsOf
  rw [startsOf_go_mem]
  simp

theorem assign_key_lookup (pws : List PlacedWord) (u : PlacedWord) (hu : u ∈ pws) :
    ∃ i, (List.insertionSort lexLe (startsOf pws)).findIdx?
        (fun p => decide (p = (u.row, u.col))) = some i ∧
      i < (startsOf pws).length ∧
      (List.insertionSort lexLe (startsOf pws)).getD i (0, 0) = (u.row, u.col) := by
  have hmem : (u.row, u.col) ∈ startsOf pws :=
    (startsOf_mem pws _).mpr ⟨u, hu, rfl⟩
  have hmem2 : (u.row, u.col) ∈ List.insertionSort lexLe (startsOf pws) :=
    (List.perm_insertionSort lexLe (startsOf pws)).mem_iff.mpr hmem
  have hi := List.findIdx?_eq_some_of_exists
    (⟨_, hmem2, by simp⟩ : ∃ x ∈ List.insertionSort lexLe (startsOf pws),
      (fun p => decide (p = (u.row, u.col))) x = true)
  obtain ⟨hlt, hp, _⟩ := List.findIdx?_eq_some_iff_getElem.mp hi
  refine ⟨_, hi, ?_, ?_⟩
  · have := (List.perm_insertionSort lexLe (startsOf pws)).length_eq
    omega
  · rw [List.getD_eq_getElem _ _ hlt]
    exact of_decide_eq_true hp

/-- C3: the crossword output's clue numbers come from the distinct start cells,
sorted by row then column and numbered from 1: `generate` applies
`assignClueNumbers` last; words sharing a start cell share a number; the numbers
are exactly the dense range `1..k` for `k` distinct start cells; and each word's
number is one plus the position of its start cell in the row-major sorted list
of distinct start cells. -/
theorem c3_clue_numbering :
    (∀ (o : Oracle) (width height : Nat) (ws : List WordItem),
      (generate o width height ws).2 =
        assignClueNumbers ((cropToBoundingBox (generateCore o width height ws) 1).placedWords)) ∧
    (∀ pws : List PlacedWord,
      (∀ w1 ∈ assignClueNumbers pws, ∀ w2 ∈ assignClueNumbers pws,
        w1.row = w2.row → w1.col = w2.col → w1.number = w2.number) ∧
      (∀ w ∈ assignClueNumbers pws,
        1 ≤ w.number ∧ w.number ≤ (startsOf pws).length) ∧
      (∀ m, 1 ≤ m → m ≤ (startsOf pws).length →
        ∃ w ∈ assignClueNumbers pws, w.number = m) ∧
      ((List.insertionSort lexLe (startsOf pws)).Sorted lexLe ∧
       (List.insertionSort lexLe (startsOf pws)).Perm (startsOf pws) ∧
       ∀ w ∈ assignClueNumbers pws,
         (List.insertionSort lexLe (startsOf pws)).getD (w.number - 1) (0, 0) =
           (w.row, w.col))) := by
  constructor
  · intro o width height ws
    rfl
  · intro pws
    refine ⟨?_, ?_, ?_, ?_, ?_, ?_⟩
    · intro w1 hw1 w2 hw2 hrow hcol
      simp only [assignClueNumbers, List.mem_map] at hw1 hw2
      obtain ⟨u1, hu1, hf1⟩ := hw1
      obtain ⟨u2, hu2, hf2⟩ := hw2
      obtain ⟨i1, hl1, _, _⟩ := assign_key_lookup pws u1 hu1
      obtain ⟨i2, hl2, _, _⟩ := assign_key_lookup pws u2 hu2
      rw [hl1] at hf1
      rw [hl2] at hf2
      have hkey : (u1.row, u1.col) = (u2.row, u2.col) := by
        have e1r : w1.row = u1.row := by rw [← hf1]
        have e1c : w1.col = u1.col := by rw [← hf1]
        have e2r : w2.row = u2.row := by rw [← hf2]
        have e2c : w2.col = u2.col := by rw [← hf2]
        rw [← e1r, ← e1c, ← e2r, ← e2c, hrow, hcol]
      rw [hkey] at hl1
      rw [hl1] at hl2
      have hi12 : i1 = i2 := Option.some.inj hl2
      have en1 : w1.number = i1 + 1 := by rw [← hf1]
      have en2 : w2.number = i2 + 1 := by rw [← hf2]
      omega
    · intro w hw
      simp only [assignClueNumbers, List.mem_map] at hw
      obtain ⟨u, hu, hf⟩ := hw
      obtain ⟨i, hl, hlt, _⟩ := assign_key_lookup pws u hu
      rw [hl] at hf
      have : w.number = i + 1 := by rw [← hf]
      omega
    · intro m hm1 hm2
      set sorted := List.insertionSort lexLe (startsOf pws) with hsorted
      have hperm := List.perm_insertionSort lexLe (startsOf pws)
      have hlen : sorted.length = (startsOf pws).length := hperm.length_eq
      have hilt : m - 1 < sorted.length := by omega
      have hmem : sorted[m - 1] ∈ startsOf pws :=
        hperm.mem_iff.mp (List.getElem_mem hilt)
      obtain ⟨u, hu, hp⟩ := (startsOf_mem pws _).mp hmem
      obtain ⟨j, hl, hjlt, hgd⟩ := assign_key_lookup pws u hu
      have hnodup : sorted.Nodup := hperm.nodup_iff.mpr (startsOf_nodup pws)
      have hji : j = m - 1 := by
        have hjlt2 : j < sorted.length := by omega
        have hsj : sorted[j] = (u.row, u.col) := by
          rw [← List.getD_eq_getElem _ (0, 0) hjlt2]
          exact hgd
        have : sorted[j] = sorted[m - 1] := by rw [hsj, ← hp]
        exact (hnodup.getElem_inj_iff).mp this
      refine ⟨{ u with number := j + 1 }, ?_, (by omega : j + 1 = m)⟩
      simp only [assignClueNumbers, List.mem_map]
      refine ⟨u, hu, ?_⟩
      rw [← hsorted, hl]
    · exact List.sorted_insertionSort lexLe (startsOf pws)
    · exact List.perm_insertionSort lexLe (startsOf pws)
    · intro w hw
      simp only [assignClueNumbers, List.mem_map] at hw
      obtain ⟨u, hu, hf⟩ := hw
      obtain ⟨i, hl, hlt, hgd⟩ := assign_key_lookup pws u hu
      rw [hl] at hf
      have hn : w.number = i + 1 := by rw [← hf]
      have hr : w.row = u.row := by rw [← hf]
      have hc : w.col = u.col := by rw [← hf]
      rw [hn, hr, hc]
      simpa using hgd

/-- Witness for C3: on a concrete two-word placement list the dense-range part
of the theorem produces a word numbered 1. -/
theorem c3_clue_numbering_witness :
    ∃ w ∈ assignClueNumbers
      [⟨['А'], "a", 2, 1, .horizontal, 0⟩, ⟨['Б'], "b", 0, 0, .vertical, 0⟩],
      w.number = 1 := by
  refine (c3_clue_numbering.2 _).2.2.1 1 (by decide) (by decide)

theorem dirStep_delta (d : Dir) (r c : Int) :
    dirStep d r c = (r + (dirDelta d).1, c + (dirDelta d).2) := by
  cases d <;> simp [dirStep, dirDelta]
  omega

theorem wsPosAt_zero (d : Dir) (row col : Int) : wsPosAt d row col 0 = (row, col) := by
  simp [wsPosAt]

theorem wsPosAt_succ (d : Dir) (row col : Int) (j : Nat) :
    wsPosAt d (row + (dirDelta d).1) (col + (dirDelta d).2) j =
      wsPosAt d row col (j + 1) := by
  simp only [wsPosAt, Prod.mk.injEq]
  constructor <;> (push_cast; ring)

theorem wsPosAt_inj (d : Dir) (row col : Int) {i j : Nat} (hij : i ≠ j) :
    wsPosAt d row col i ≠ wsPosAt d row col j := by
  cases d <;>
  · intro h
    simp only [wsPosAt, dirDelta, Prod.mk.injEq, mul_zero, mul_one, mul_neg,
      add_zero] at h
    omega

theorem allCells_mem (height width : Nat) (r c : Int) :
    (r, c) ∈ allCells height width ↔ inB height width r c := by
  constructor
  · intro hmem
    rcases List.mem_flatMap.mp hmem with ⟨rn, hrn, hm2⟩
    rcases List.mem_map.mp hm2 with ⟨cn, hcn, heq⟩
    rw [List.mem_range] at hrn hcn
    cases heq
    exact ⟨by omega, by omega, by omega, by omega⟩
  · intro h
    obtain ⟨h1, h2, h3, h4⟩ := h
    refine List.mem_flatMap.mpr ⟨r.toNat, List.mem_range.mpr (by omega), ?_⟩
    refine List.mem_map.mpr ⟨c.toNat, List.mem_range.mpr (by omega), ?_⟩
    simp only [Prod.mk.injEq]
    constructor <;> omega

theorem cell_ok_iff (cell : Cell) (ch : Char) :
    ¬ (cell.isSome ∧ ¬ cell = some ch) ↔ (cell = none ∨ cell = some ch) := by
  cases cell <;> simp

theorem wsPosAt_dirStep (d : Dir) (row col : Int) (j : Nat) :
    wsPosAt d (dirStep d row col).1 (dirStep d row col).2 j =
      wsPosAt d row col (j + 1) := by
  rw [dirStep_delta]
  exact wsPosAt_succ d row col j

theorem wsCanPlaceAux_iff (height width : Nat) (g : Grid) (d : Dir) :
    ∀ (word : List Char) (row col : Int),
      wsCanPlaceAux height width g d word row col = true ↔
        ∀ i < word.length,
          inB height width (wsPosAt d row col i).1 (wsPosAt d row col i).2 ∧
          (gcell g (wsPosAt d row col i).1 (wsPosAt d row col i).2 = none ∨
           gcell g (wsPosAt d row col i).1 (wsPosAt d row col i).2 =
             some (word.getD i ' ')) := by
  intro word
  induction word with
  | nil =>
    intro row col
    simp [wsCanPlaceAux]
  | cons ch rest ih =>
    intro row col
    show (if row < 0 ∨ (height : Int) ≤ row ∨ col < 0 ∨ (width : Int) ≤ col then false
       else if (gcell g row col).isSome ∧ ¬ (gcell g row col = some ch) then false
       else wsCanPlaceAux height width g d rest (dirStep d row col).1
         (dirStep d row col).2) = true ↔ _
    rw [ite_false_left, ite_false_left, ih]
    constructor
    · rintro ⟨hA, hB, hX⟩ i hi
      match i with
      | 0 =>
        rw [wsPosAt_zero]
        push_neg at hA
        exact ⟨⟨by omega, by omega, by omega, by omega⟩,
          by simpa using (cell_ok_iff _ ch).mp hB⟩
      | j + 1 =>
        have := hX j (by simpa using Nat.lt_of_succ_lt_succ hi)
        simp only [wsPosAt_dirStep] at this
        simpa using this
    · intro hall
      have h0 := hall 0 (by simp)
      rw [wsPosAt_zero] at h0
      obtain ⟨⟨hb1, hb2, hb3, hb4⟩, hcomp⟩ := h0
      refine ⟨by omega, (cell_ok_iff _ ch).mpr (by simpa using hcomp), ?_⟩
      intro j hj
      have := hall (j + 1) (by simpa using Nat.succ_lt_succ hj)
      simp only [wsPosAt_dirStep]
      simpa using this

theorem gcell_wsWriteAux_off (d : Dir) : ∀ (word : List Char) (g : Grid) (row col r c : Int),
    (∀ i < word.length, wsPosAt d row col i ≠ (r, c)) →
    gcell (wsWriteAux d g word row col) r c = gcell g r c := by
  intro word
  induction word with
  | nil => intro g row col r c _; rfl
  | cons ch rest ih =>
    intro g row col r c hoff
    simp only [wsWriteAux]
    rw [ih _ (dirStep d row col).1 (dirStep d row col).2 r c ?_]
    · have h0 := hoff 0 (by simp)
      rw [wsPosAt_zero] at h0
      refine gcell_gset_of_ne g row col r c (some ch) ?_
      rcases eq_or_ne row r with hrr | hrr
      · rcases eq_or_ne col c with hcc | hcc
        · exact absurd (by rw [hrr, hcc]) h0
        · exact Or.inr hcc
      · exact Or.inl hrr
    · intro j hj
      simp only [wsPosAt_dirStep]
      exact hoff (j + 1) (by simpa using Nat.succ_lt_succ hj)

theorem gcell_wsWriteAux_on (h w : Nat) (d : Dir) : ∀ (word : List Char) (g : Grid)
    (row col : Int), WF h w g →
    (∀ i < word.length, inB h w (wsPosAt d row col i).1 (wsPosAt d row col i).2) →
    ∀ i < word.length,
      gcell (wsWriteAux d g word row col) (wsPosAt d row col i).1
        (wsPosAt d row col i).2 = some (word.getD i ' ') := by
  intro word
  induction word with
  | nil => intro g row col _ _ i hi; exact absurd hi (by simp)
  | cons ch rest ih =>
    intro g row col hwf hb i hi
    simp only [wsWriteAux]
    match i with
    | 0 =>
      rw [gcell_wsWriteAux_off d rest _ (dirStep d row col).1 (dirStep d row col).2
        (wsPosAt d row col 0).1 (wsPosAt d row col 0).2 ?_]
      · have hb0 := hb 0 (by simp)
        rw [wsPosAt_zero] at hb0 ⊢
        rw [gcell_gset_same h w g row col (some ch) hwf hb0]
        rfl
      · intro j hj
        simp only [wsPosAt_dirStep]
        exact wsPosAt_inj d row col (by omega)
    | j + 1 =>
      have hwf2 : WF h w (gset g row col (some ch)) := WF_gset h w g row col (some ch) hwf
      have hb2 : ∀ i2 < rest.length,
          inB h w (wsPosAt d (dirStep d row col).1 (dirStep d row col).2 i2).1
            (wsPosAt d (dirStep d row col).1 (dirStep d row col).2 i2).2 := by
        intro i2 hi2
        simp only [wsPosAt_dirStep]
        exact hb (i2 + 1) (by simpa using Nat.succ_lt_succ hi2)
      have := ih (gset g row col (some ch)) (dirStep d row col).1 (dirStep d row col).2
        hwf2 hb2 j (by simpa using Nat.lt_of_succ_lt_succ hi)
      simp only [wsPosAt_dirStep] at this
      simpa using this

theorem wsWriteAux_wf (h w : Nat) (d : Dir) : ∀ (word : List Char) (g : Grid)
    (row col : Int), WF h w g → WF h w (wsWriteAux d g word row col) := by
  intro word
  induction word with
  | nil => intro g row col hwf; exact hwf
  | cons ch rest ih =>
    intro g row col hwf
    exact ih _ _ _ (WF_gset h w g row col (some ch) hwf)


theorem wsAlphabet_getD_mem (m : Nat) :
    wsAlphabet.getD (m % wsAlphabet.length) 'А' ∈ wsAlphabet := by
  have hlen : wsAlphabet.length = 33 := by decide
  have hlt : m % wsAlphabet.length < wsAlphabet.length :=
    Nat.mod_lt _ (by omega)
  rw [List.getD_eq_getElem _ _ hlt]
  exact List.getElem_mem hlt

theorem pair_ne_components {p : Int × Int} {r c : Int} (h : p ≠ (r, c)) :
    p.1 ≠ r ∨ p.2 ≠ c := by
  rcases eq_or_ne p.1 r with h1 | h1
  · rcases eq_or_ne p.2 c with h2 | h2
    · exact absurd (Prod.ext h1 h2) h
    · exact Or.inr h2
  · exact Or.inl h1

theorem fillFold_not_mem (o : WSOracle) : ∀ (cells : List (Int × Int)) (g : Grid)
    (r c : Int), (r, c) ∉ cells →
    gcell (cells.foldl (fillStep o) g) r c = gcell g r c := by
  intro cells
  induction cells with
  | nil => intro g r c _; rfl
  | cons p rest ih =>
    intro g r c hmem
    have hp : p ≠ (r, c) := fun h => hmem (by rw [h]; exact List.mem_cons_self _ _)
    have hrest : (r, c) ∉ rest := fun h => hmem (List.mem_cons_of_mem _ h)
    simp only [List.foldl_cons]
    rw [ih _ r c hrest]
    unfold fillStep
    split
    · exact gcell_gset_of_ne g p.1 p.2 r c _ (pair_ne_components hp)
    · rfl

theorem fillFold_preserve (o : WSOracle) : ∀ (cells : List (Int × Int)) (g : Grid)
    (r c : Int), gcell g r c ≠ none →
    gcell (cells.foldl (fillStep o) g) r c = gcell g r c := by
  intro cells
  induction cells with
  | nil => intro g r c _; rfl
  | cons p rest ih =>
    intro g r c hne
    simp only [List.foldl_cons]
    have hstep : gcell (fillStep o g p) r c = gcell g r c := by
      unfold fillStep
      split
      · rename_i hcond
        refine gcell_gset_of_ne g p.1 p.2 r c _ (pair_ne_components ?_)
        intro hp
        rw [hp] at hcond
        exact hne hcond
      · rfl
    rw [ih _ r c (by rw [hstep]; exact hne), hstep]

theorem fillStep_wf (h w : Nat) (o : WSOracle) (g : Grid) (p : Int × Int)
    (hwf : WF h w g) : WF h w (fillStep o g p) := by
  unfold fillStep
  split
  · exact WF_gset h w g p.1 p.2 _ hwf
  · exact hwf

theorem fillFold_fills (o : WSOracle) (h w : Nat) : ∀ (cells : List (Int × Int))
    (g : Grid), WF h w g → (∀ q ∈ cells, inB h w q.1 q.2) →
    ∀ r c, (r, c) ∈ cells → gcell g r c = none →
      ∃ ch ∈ wsAlphabet, gcell (cells.foldl (fillStep o) g) r c = some ch := by
  intro cells
  induction cells with
  | nil => intro g _ _ r c hmem _; exact absurd hmem (List.not_mem_nil _)
  | cons p rest ih =>
    intro g hwf hb r c hmem hnone
    simp only [List.foldl_cons]
    by_cases hp : p = (r, c)
    · have hcond : gcell g p.1 p.2 = none := by rw [hp]; exact hnone
      have hstep : fillStep o g p =
          gset g p.1 p.2 (some (wsAlphabet.getD (o.fill p.1 p.2 % wsAlphabet.length) 'А')) := by
        unfold fillStep
        rw [if_pos hcond]
      have hbp : inB h w p.1 p.2 := hb p (List.mem_cons_self _ _)
      have hval : gcell (fillStep o g p) r c =
          some (wsAlphabet.getD (o.fill p.1 p.2 % wsAlphabet.length) 'А') := by
        rw [hstep, hp]
        rw [hp] at hbp
        exact gcell_gset_same h w g r c _ hwf hbp
      refine ⟨wsAlphabet.getD (o.fill p.1 p.2 % wsAlphabet.length) 'А',
        wsAlphabet_getD_mem _, ?_⟩
      rw [fillFold_preserve o rest _ r c (by rw [hval]; exact Option.some_ne_none _), hval]
    · have hrest : (r, c) ∈ rest := by
        rcases List.mem_cons.mp hmem with heq | hmem2
        · exact absurd heq.symm hp
        · exact hmem2
      have hunch : gcell (fillStep o g p) r c = gcell g r c := by
        unfold fillStep
        split
        · exact gcell_gset_of_ne g p.1 p.2 r c _ (pair_ne_components hp)
        · rfl
      exact ih (fillStep o g p) (fillStep_wf h w o g p hwf)
        (fun q hq => hb q (List.mem_cons_of_mem _ hq)) r c hrest (by rw [hunch]; exact hnone)

theorem fillFold_result (o : WSOracle) (h w : Nat) (cells : List (Int × Int))
    (g : Grid) (hwf : WF h w g) (hb : ∀ q ∈ cells, inB h w q.1 q.2)
    (r c : Int) (hmem : (r, c) ∈ cells) :
    (gcell g r c ≠ none ∧ gcell (cells.foldl (fillStep o) g) r c = gcell g r c) ∨
    (gcell g r c = none ∧
      ∃ ch ∈ wsAlphabet, gcell (cells.foldl (fillStep o) g) r c = some ch) := by
  by_cases hval : gcell g r c = none
  · exact Or.inr ⟨hval, fillFold_fills o h w cells g hwf hb r c hmem hval⟩
  · exact Or.inl ⟨hval, fillFold_preserve o cells g r c hval⟩


theorem wsAdd_inv (st : WS) (wi : WordItem) (row col : Int) (d : Dir)
    (hcp : wsCanPlace st wi.word row col d = true) (hinv : WSInv st) :
    WSInv (wsAddWordToGrid st wi.word wi.definition row col d) := by
  obtain ⟨hwf, hlets, hnums, hcov⟩ := hinv
  have hchar := (wsCanPlaceAux_iff st.height st.width st.grid d wi.word row col).mp hcp
  have hbounds : ∀ i < wi.word.length,
      inB st.height st.width (wsPosAt d row col i).1 (wsPosAt d row col i).2 :=
    fun i hi => (hchar i hi).1
  have hpres : ∀ r c : Int, gcell st.grid r c ≠ none →
      gcell (wsWriteAux d st.grid wi.word row col) r c = gcell st.grid r c := by
    intro r c hne
    by_cases hoff : ∀ i < wi.word.length, wsPosAt d row col i ≠ (r, c)
    · exact gcell_wsWriteAux_off d wi.word st.grid row col r c hoff
    · push_neg at hoff
      obtain ⟨i, hi, heq⟩ := hoff
      rcases (hchar i hi).2 with hcnone | hcsome
      · rw [heq] at hcnone
        exact absurd hcnone hne
      · have hon := gcell_wsWriteAux_on st.height st.width d wi.word st.grid row col
          hwf hbounds i hi
        rw [heq] at hon hcsome
        rw [hon, hcsome]
  unfold WSInv wsAddWordToGrid
  simp only
  refine ⟨?_, ?_, ?_, ?_⟩
  · exact wsWriteAux_wf st.height st.width d wi.word st.grid row col hwf
  · intro pw hpw i hi
    rcases List.mem_append.mp hpw with hold | hnew
    · rcases hlets pw hold i hi with ⟨hb, hl⟩
      exact ⟨hb, by rw [hpres _ _ (by rw [hl]; exact Option.some_ne_none _)]; exact hl⟩
    · rw [List.mem_singleton] at hnew
      subst hnew
      exact ⟨hbounds i hi,
        gcell_wsWriteAux_on st.height st.width d wi.word st.grid row col hwf hbounds i hi⟩
  · intro k hk
    simp only [List.length_append, List.length_singleton] at hk
    rcases Nat.lt_or_ge k st.placedWords.length with hklt | hkge
    · rw [List.getD_eq_getElem?_getD, List.getElem?_append_left hklt,
        ← List.getD_eq_getElem?_getD]
      exact hnums k hklt
    · have hkeq : k = st.placedWords.length := by omega
      subst hkeq
      rw [List.getD_eq_getElem?_getD, List.getElem?_append_right (le_refl _)]
      simp
  · intro r c hne
    by_cases hoff : ∀ i < wi.word.length, wsPosAt d row col i ≠ (r, c)
    · rw [gcell_wsWriteAux_off d wi.word st.grid row col r c hoff] at hne
      obtain ⟨pw, hpw, i, hi, hpos⟩ := hcov r c hne
      exact ⟨pw, List.mem_append.mpr (Or.inl hpw), i, hi, hpos⟩
    · push_neg at hoff
      obtain ⟨i, hi, heq⟩ := hoff
      refine ⟨⟨wi.word, wi.definition, row, col, d, st.placedWords.length + 1⟩,
        List.mem_append.mpr (Or.inr (List.mem_singleton.mpr rfl)), i, hi, heq⟩

theorem wsTry_inv (o : WSOracle) (st : WS) (k : Nat) (wi : WordItem) :
    ∀ rest t : Nat, WSInv st → WSInv (wsTry o st k wi rest t) := by
  intro rest
  induction rest with
  | zero => intro t hinv; exact hinv
  | succ rest ih =>
    intro t hinv
    simp only [wsTry]
    split
    · rename_i hcp
      exact wsAdd_inv st wi _ _ _ hcp hinv
    · exact ih (t + 1) hinv

theorem wsPlaceWord_inv (o : WSOracle) (st : WS) (k : Nat) (wi : WordItem)
    (hinv : WSInv st) : WSInv (wsPlaceWord o st k wi) :=
  wsTry_inv o st k wi 50 0 hinv

theorem wsAdd_dims (st : WS) (word : List Char) (defn : String) (row col : Int)
    (d : Dir) : (wsAddWordToGrid st word defn row col d).height = st.height ∧
      (wsAddWordToGrid st word defn row col d).width = st.width :=
  ⟨rfl, rfl⟩

theorem wsTry_dims (o : WSOracle) (st : WS) (k : Nat) (wi : WordItem) :
    ∀ rest t : Nat, (wsTry o st k wi rest t).height = st.height ∧
      (wsTry o st k wi rest t).width = st.width := by
  intro rest
  induction rest with
  | zero => intro t; exact ⟨rfl, rfl⟩
  | succ rest ih =>
    intro t
    simp only [wsTry]
    split
    · exact ⟨rfl, rfl⟩
    · exact ih (t + 1)

theorem wsFold_inv (o : WSOracle) : ∀ (l : List (Nat × WordItem)) (st : WS),
    WSInv st →
    WSInv (l.foldl (fun st kw => wsPlaceWord o st kw.1 kw.2) st) := by
  intro l
  induction l with
  | nil => intro st hinv; exact hinv
  | cons kw rest ih =>
    intro st hinv
    exact ih _ (wsPlaceWord_inv o st kw.1 kw.2 hinv)

theorem wsFold_dims (o : WSOracle) : ∀ (l : List (Nat × WordItem)) (st : WS),
    (l.foldl (fun st kw => wsPlaceWord o st kw.1 kw.2) st).height = st.height ∧
    (l.foldl (fun st kw => wsPlaceWord o st kw.1 kw.2) st).width = st.width := by
  intro l
  induction l with
  | nil => intro st; exact ⟨rfl, rfl⟩
  | cons kw rest ih =>
    intro st
    simp only [List.foldl_cons]
    obtain ⟨h1, h2⟩ := ih (wsPlaceWord o st kw.1 kw.2)
    obtain ⟨h3, h4⟩ := wsTry_dims o st kw.1 kw.2 50 0
    exact ⟨by rw [h1]; exact h3, by rw [h2]; exact h4⟩

theorem wsInv_init (width height : Nat) :
    WSInv ⟨width, height, emptyGrid height width, []⟩ := by
  refine ⟨WF_emptyGrid height width, ?_, ?_, ?_⟩
  · intro pw hpw
    exact absurd hpw (List.not_mem_nil _)
  · intro k hk
    exact absurd hk (by simp)
  · intro r c hne
    exact absurd (gcell_emptyGrid height width r c) hne


theorem fillFold_wf (o : WSOracle) (h w : Nat) : ∀ (cells : List (Int × Int))
    (g : Grid), WF h w g → WF h w (cells.foldl (fillStep o) g) := by
  intro cells
  induction cells with
  | nil => intro g hwf; exact hwf
  | cons p rest ih =>
    intro g hwf
    exact ih _ (fillStep_wf h w o g p hwf)

theorem wsTry_char (o : WSOracle) (st : WS) (k : Nat) (wi : WordItem) :
    ∀ rest t : Nat, rest + t = 50 →
    (∃ u, t ≤ u ∧ u < 50 ∧ wsApproved o st k wi u ∧
      (∀ s, t ≤ s → s < u → ¬ wsApproved o st k wi s) ∧
      wsTry o st k wi rest t = wsAddWordToGrid st wi.word wi.definition
        (wsDraw o st k u).2.1 (wsDraw o st k u).2.2 (wsDraw o st k u).1) ∨
    ((∀ u, t ≤ u → u < 50 → ¬ wsApproved o st k wi u) ∧
      wsTry o st k wi rest t = st) := by
  intro rest
  induction rest with
  | zero =>
    intro t ht
    right
    exact ⟨fun u hu1 hu2 => absurd (by omega : u < u) (lt_irrefl u), rfl⟩
  | succ rest ih =>
    intro t ht
    by_cases hap : wsApproved o st k wi t
    · left
      refine ⟨t, le_refl t, by omega, hap, fun s hs1 hs2 => absurd (by omega : s < s)
        (lt_irrefl s), ?_⟩
      simp only [wsTry]
      unfold wsApproved at hap
      rw [if_pos hap]
    · rcases ih (t + 1) (by omega) with ⟨u, hu1, hu2, hap2, hmin, heq⟩ | ⟨hnone, heq⟩
      · left
        refine ⟨u, by omega, hu2, hap2, ?_, ?_⟩
        · intro s hs1 hs2
          rcases Nat.eq_or_lt_of_le hs1 with rfl | hs3
          · exact hap
          · exact hmin s (by omega) hs2
        · simp only [wsTry]
          unfold wsApproved at hap
          rw [if_neg hap]
          exact heq
      · right
        refine ⟨?_, ?_⟩
        · intro u hu1 hu2
          rcases Nat.eq_or_lt_of_le hu1 with rfl | hu3
          · exact hap
          · exact hnone u (by omega) hu2
        · simp only [wsTry]
          unfold wsApproved at hap
          rw [if_neg hap]
          exact heq

/-- C10: in every word-search output, walking each placed word's length from
its start cell in its direction stays inside the grid, and even after the
random fill pass the grid cell at step `i` carries the word's `i`-th letter:
words are written only at validator-approved in-bounds positions, and the fill
pass writes only cells that are still the sentinel. -/
theorem c10_ws_words_intact (o : WSOracle) (width height : Nat)
    (words : List WordItem) :
    ∀ pw ∈ (wsGenerate o width height words).2, ∀ i < pw.word.length,
      inB height width (wsPosAt pw.direction pw.row pw.col i).1
        (wsPosAt pw.direction pw.row pw.col i).2 ∧
      gcell (wsGenerate o width height words).1
        (wsPosAt pw.direction pw.row pw.col i).1
        (wsPosAt pw.direction pw.row pw.col i).2 = some (pw.word.getD i ' ') := by
  intro pw hpw i hi
  unfold wsGenerate at hpw ⊢
  simp only at hpw ⊢
  set sorted := List.insertionSort (fun a b => b.word.length ≤ a.word.length) words
    with hsorted
  set st := sorted.enum.foldl (fun st kw => wsPlaceWord o st kw.1 kw.2)
    (⟨width, height, emptyGrid height width, []⟩ : WS) with hst
  obtain ⟨hdimH, hdimW⟩ := wsFold_dims o sorted.enum
    (⟨width, height, emptyGrid height width, []⟩ : WS)
  have hinv : WSInv st := wsFold_inv o sorted.enum _ (wsInv_init width height)
  obtain ⟨hwf, hlets, hnums, hcov⟩ := hinv
  have hpw2 : pw ∈ st.placedWords := hpw
  obtain ⟨hb, hl⟩ := hlets pw hpw2 i hi
  rw [hdimH, hdimW] at hb hwf
  refine ⟨hb, ?_⟩
  show gcell ((allCells st.height st.width).foldl (fillStep o) st.grid) _ _ = _
  rw [fillFold_preserve o _ _ _ _ (by rw [hl]; exact Option.some_ne_none _)]
  exact hl

/-- C7: every cell of the word-search output grid is non-empty: the grid is a
`height × width` matrix and each in-bounds cell carries either a letter of a
placed word (at the corresponding step of its walk) or a letter of the fixed
33-character alphabet written by the fill pass. -/
theorem c7_ws_full_grid (o : WSOracle) (width height : Nat)
    (words : List WordItem) :
    WF height width (wsGenerate o width height words).1 ∧
    ∀ r c : Int, inB height width r c →
      ∃ ch, gcell (wsGenerate o width height words).1 r c = some ch ∧
        (ch ∈ wsAlphabet ∨
         ∃ pw ∈ (wsGenerate o width height words).2, ∃ i < pw.word.length,
           wsPosAt pw.direction pw.row pw.col i = (r, c) ∧
           pw.word.getD i ' ' = ch) := by
  unfold wsGenerate
  simp only
  set sorted := List.insertionSort (fun a b => b.word.length ≤ a.word.length) words
    with hsorted
  set st := sorted.enum.foldl (fun st kw => wsPlaceWord o st kw.1 kw.2)
    (⟨width, height, emptyGrid height width, []⟩ : WS) with hst
  obtain ⟨hdimH, hdimW⟩ := wsFold_dims o sorted.enum
    (⟨width, height, emptyGrid height width, []⟩ : WS)
  have hinv : WSInv st := wsFold_inv o sorted.enum _ (wsInv_init width height)
  obtain ⟨hwf, hlets, hnums, hcov⟩ := hinv
  rw [hdimH, hdimW] at hwf
  constructor
  · show WF height width ((allCells st.height st.width).foldl (fillStep o) st.grid)
    rw [hdimH, hdimW]
    exact fillFold_wf o height width _ st.grid hwf
  · intro r c hb
    have hmem : (r, c) ∈ allCells st.height st.width := by
      rw [hdimH, hdimW]
      exact (allCells_mem height width r c).mpr hb
    have hbq : ∀ q ∈ allCells st.height st.width, inB height width q.1 q.2 := by
      intro q hq
      rw [hdimH, hdimW] at hq
      have := (allCells_mem height width q.1 q.2).mp (by
        rcases q with ⟨q1, q2⟩
        exact hq)
      exact this
    rcases fillFold_result o height width (allCells st.height st.width) st.grid hwf
      hbq r c hmem with ⟨hne, hunch⟩ | ⟨-, ch, hch, hval⟩
    · obtain ⟨pw, hpw, i, hi, hpos⟩ := hcov r c hne
      obtain ⟨-, hl⟩ := hlets pw hpw i hi
      rw [hpos] at hl
      refine ⟨pw.word.getD i ' ', ?_, Or.inr ⟨pw, hpw, i, hi, hpos, rfl⟩⟩
      show gcell ((allCells st.height st.width).foldl (fillStep o) st.grid) r c = _
      rw [hunch]
      exact hl
    · exact ⟨ch, hval, Or.inl hch⟩

/-- C8: each word-search word is placed by at most 50 oracle draws over the 4
directions and the full grid range, at the first validator-approved draw, and
silently skipped when all 50 fail; every placed word's `number` is its 1-based
position in placement order. -/
theorem c8_ws_place_policy :
    (∀ (o : WSOracle) (st : WS) (k : Nat) (wi : WordItem),
      (∃ t < 50, wsApproved o st k wi t ∧
        (∀ s < t, ¬ wsApproved o st k wi s) ∧
        wsPlaceWord o st k wi = wsAddWordToGrid st wi.word wi.definition
          (wsDraw o st k t).2.1 (wsDraw o st k t).2.2 (wsDraw o st k t).1) ∨
      ((∀ t < 50, ¬ wsApproved o st k wi t) ∧ wsPlaceWord o st k wi = st)) ∧
    (∀ (o : WSOracle) (st : WS) (k t : Nat),
      (wsDraw o st k t).1 ∈ wsDirs ∧
      (0 < st.height → 0 ≤ (wsDraw o st k t).2.1 ∧
        (wsDraw o st k t).2.1 < (st.height : Int)) ∧
      (0 < st.width → 0 ≤ (wsDraw o st k t).2.2 ∧
        (wsDraw o st k t).2.2 < (st.width : Int))) ∧
    (∀ (o : WSOracle) (width height : Nat) (words : List WordItem),
      ∀ k < (wsGenerate o width height words).2.length,
        ((wsGenerate o width height words).2.getD k default).number = k + 1) := by
  refine ⟨?_, ?_, ?_⟩
  · intro o st k wi
    rcases wsTry_char o st k wi 50 0 rfl with ⟨u, _, hu2, hap, hmin, heq⟩ | ⟨hnone, heq⟩
    · exact Or.inl ⟨u, hu2, hap, fun s hs => hmin s (Nat.zero_le s) hs, heq⟩
    · exact Or.inr ⟨fun t ht => hnone t (Nat.zero_le t) ht, heq⟩
  · intro o st k t
    refine ⟨?_, ?_, ?_⟩
    · have hlt : o.dir k t % wsDirs.length < wsDirs.length :=
        Nat.mod_lt _ (by simp [wsDirs])
      unfold wsDraw
      rw [List.getD_eq_getElem _ _ hlt]
      exact List.getElem_mem hlt
    · intro hh
      unfold wsDraw
      simp only
      have := Nat.mod_lt (o.row k t) hh
      omega
    · intro hw
      unfold wsDraw
      simp only
      have := Nat.mod_lt (o.col k t) hw
      omega
  · intro o width height words k hk
    unfold wsGenerate at hk ⊢
    simp only at hk ⊢
    set sorted := List.insertionSort (fun a b => b.word.length ≤ a.word.length) words
    set st := sorted.enum.foldl (fun st kw => wsPlaceWord o st kw.1 kw.2)
      (⟨width, height, emptyGrid height width, []⟩ : WS) with hst
    have hinv : WSInv st := wsFold_inv o sorted.enum _ (wsInv_init width height)
    exact hinv.2.2.1 k hk

/-- Witness for C10: the concrete single-word search on a 3×3 grid keeps the
word's first letter at its walk position after the fill pass. -/
theorem c10_ws_words_intact_witness :
    inB 3 3 (wsPosAt .horizontal 0 0 0).1 (wsPosAt .horizontal 0 0 0).2 ∧
    gcell (wsGenerate wsOracleZ 3 3 [⟨['А','Б'], "d"⟩]).1
      (wsPosAt .horizontal 0 0 0).1 (wsPosAt .horizontal 0 0 0).2 = some 'А' :=
  c10_ws_words_intact wsOracleZ 3 3 [⟨['А','Б'], "d"⟩]
    ⟨['А','Б'], "d", 0, 0, .horizontal, 1⟩ (by decide) 0 (by decide)

/-- Witness for C7: cell (0,0) of the concrete 3×3 word-search output is
non-empty. -/
theorem c7_ws_full_grid_witness :
    ∃ ch, gcell (wsGenerate wsOracleZ 3 3 [⟨['А','Б'], "d"⟩]).1 0 0 = some ch ∧
      (ch ∈ wsAlphabet ∨
       ∃ pw ∈ (wsGenerate wsOracleZ 3 3 [⟨['А','Б'], "d"⟩]).2,
         ∃ i < pw.word.length,
           wsPosAt pw.direction pw.row pw.col i = (0, 0) ∧
           pw.word.getD i ' ' = ch) :=
  (c7_ws_full_grid wsOracleZ 3 3 [⟨['А','Б'], "d"⟩]).2 0 0 (by decide)

/-- Witness for C8: the first placed word of the concrete search has number 1. -/
theorem c8_ws_place_policy_witness :
    ((wsGenerate wsOracleZ 3 3 [⟨['А','Б'], "d"⟩]).2.getD 0 default).number = 1 :=
  c8_ws_place_policy.2.2 wsOracleZ 3 3 [⟨['А','Б'], "d"⟩] 0 (by decide)

theorem cons_set_perm {α : Type} : ∀ (t : List α) (j : Nat), ∀ hj : j < t.length, ∀ x : α,
    (t[j] :: (t.set j x)).Perm (x :: t) := by
  intro t
  induction t with
  | nil => intro j hj x; exact absurd hj (by simp)
  | cons y s ih =>
    intro j hj x
    match j with
    | 0 =>
      simp only [List.getElem_cons_zero, List.set_cons_zero]
      exact List.Perm.swap x y s
    | k + 1 =>
      simp only [List.getElem_cons_succ, List.set_cons_succ]
      have hk : k < s.length := by simpa using Nat.lt_of_succ_lt_succ hj
      exact ((List.Perm.swap y (s[k]) (s.set k x)).trans
        ((ih k hk x).cons y)).trans (List.Perm.swap x y s)

theorem set_set_perm {α : Type} : ∀ (l : List α) (i j : Nat), ∀ hi : i < l.length,
    ∀ hj : j < l.length, ((l.set i l[j]).set j l[i]).Perm l := by
  intro l
  induction l with
  | nil => intro i j hi _; exact absurd hi (by simp)
  | cons x t ih =>
    intro i j hi hj
    match i, j with
    | 0, 0 =>
      simp only [List.getElem_cons_zero, List.set_cons_zero]
      exact List.Perm.refl _
    | 0, j + 1 =>
      simp only [List.getElem_cons_zero, List.getElem_cons_succ, List.set_cons_zero,
        List.set_cons_succ]
      exact cons_set_perm t j (by simpa using Nat.lt_of_succ_lt_succ hj) x
    | i + 1, 0 =>
      simp only [List.getElem_cons_zero, List.getElem_cons_succ, List.set_cons_zero,
        List.set_cons_succ]
      exact cons_set_perm t i (by simpa using Nat.lt_of_succ_lt_succ hi) x
    | i + 1, j + 1 =>
      simp only [List.getElem_cons_succ, List.set_cons_succ]
      exact (ih i j (by simpa using Nat.lt_of_succ_lt_succ hi)
        (by simpa using Nat.lt_of_succ_lt_succ hj)).cons x

theorem listSwap_perm {α : Type} (l : List α) (i j : Nat) :
    (listSwap l i j).Perm l := by
  unfold listSwap
  split
  · rename_i a b ha hb
    have hi : i < l.length := by
      by_contra hcon
      rw [List.getElem?_eq_none (Nat.le_of_not_lt hcon)] at ha
      exact Option.noConfusion ha
    have hj : j < l.length := by
      by_contra hcon
      rw [List.getElem?_eq_none (Nat.le_of_not_lt hcon)] at hb
      exact Option.noConfusion hb
    have ha2 : l[i] = a := by
      rw [List.getElem?_eq_getElem hi] at ha
      exact Option.some.inj ha
    have hb2 : l[j] = b := by
      rw [List.getElem?_eq_getElem hj] at hb
      exact Option.some.inj hb
    rw [← ha2, ← hb2]
    exact set_set_perm l i j hi hj
  · exact List.Perm.refl l

theorem fyShuffle_perm (sel : Nat → Nat) (letters : List Char) :
    (fyShuffle sel letters).Perm letters := by
  unfold fyShuffle
  generalize (List.range' 1 (letters.length - 1)).reverse = idxs
  induction idxs generalizing letters with
  | nil => exact List.Perm.refl letters
  | cons i rest ih =>
    simp only [List.foldl_cons]
    exact (ih (listSwap letters i (sel i % (i + 1)))).trans
      (listSwap_perm letters i _)

theorem scrambleRetryAux_perm (sel : Nat → Nat → Nat) (word : List Char) :
    ∀ (fuel attempts : Nat) (current : List Char),
      (scrambleRetryAux sel word fuel attempts current).Perm current := by
  intro fuel
  induction fuel with
  | zero => intro attempts current; exact List.Perm.refl current
  | succ fuel ih =>
    intro attempts current
    show (if current = word then _ else current).Perm current
    split
    · exact (ih (attempts + 1) (fyShuffle (sel attempts) current)).trans
        (fyShuffle_perm (sel attempts) current)
    · exact List.Perm.refl current

/-- C9: the scramble generator returns one item per input word in input order,
preserving the original word and the definition; the scrambled word is a
permutation (equal character multiset) of the original; and the bounded retry
loop can accept a scramble equal to the original, as the identity-shuffle
oracle shows on a two-letter word, so inequality is not guaranteed. -/
theorem c9_scramble :
    (∀ (o : Nat → Nat → Nat → Nat) (words : List WordItem),
      (scrambleGenerate o words).length = words.length ∧
      ∀ k < words.length,
        ((scrambleGenerate o words).getD k ⟨[], [], ""⟩).original =
          (words.getD k ⟨[], ""⟩).word ∧
        ((scrambleGenerate o words).getD k ⟨[], [], ""⟩).definition =
          (words.getD k ⟨[], ""⟩).definition ∧
        ((scrambleGenerate o words).getD k ⟨[], [], ""⟩).scrambled.Perm
          (words.getD k ⟨[], ""⟩).word) ∧
    scrambleGenerate (fun _ _ i => i) [⟨['А', 'Б'], "d"⟩] =
      [⟨['А', 'Б'], ['А', 'Б'], "d"⟩] := by
  constructor
  · intro o words
    have hlen : (scrambleGenerate o words).length = words.length := by
      unfold scrambleGenerate
      simp [List.enum_length]
    refine ⟨hlen, ?_⟩
    intro k hk
    have hk2 : k < (scrambleGenerate o words).length := by rw [hlen]; exact hk
    have hget : (scrambleGenerate o words).getD k ⟨[], [], ""⟩ =
        (scrambleGenerate o words)[k] := List.getD_eq_getElem _ _ hk2
    have hgetw : words.getD k ⟨[], ""⟩ = words[k] := List.getD_eq_getElem _ _ hk
    rw [hget, hgetw]
    unfold scrambleGenerate
    simp only [List.getElem_map, List.getElem_enum]
    refine ⟨trivial, trivial, ?_⟩
    show (if 1 < words[k].word.length then
          scrambleRetry (fun a => o k (a + 1)) words[k].word
            (fyShuffle (o k 0) words[k].word)
        else fyShuffle (o k 0) words[k].word).Perm words[k].word
    split
    · exact (scrambleRetryAux_perm _ _ 5 0 _).trans (fyShuffle_perm _ _)
    · exact fyShuffle_perm _ _
  · decide

/-- Witness for C9: the concrete scramble of a two-letter word is a permutation
of the original. -/
theorem c9_scramble_witness :
    ((scrambleGenerate (fun _ _ _ => 0) [⟨['А', 'Б'], "d"⟩]).getD 0
      ⟨[], [], ""⟩).scrambled.Perm ['А', 'Б'] :=
  ((c9_scramble.1 (fun _ _ _ => 0) [⟨['А', 'Б'], "d"⟩]).2 0 (by decide)).2.2


theorem sharesCell_symm {w1 w2 : PlacedWord} (h : sharesCell w1 w2) :
    sharesCell w2 w1 := by
  obtain ⟨i1, h1, i2, h2, hpos, hlet⟩ := h
  exact ⟨i2, h2, i1, h1, hpos.symm, hlet.symm⟩

theorem mem_candidates {st : CW} {word : List Char} {p : Int × Int × Dir}
    (hp : p ∈ candidates st word) :
    (p.2.2 = .horizontal ∨ p.2.2 = .vertical) ∧
    canPlace st word p.1 p.2.1 p.2.2 = true ∧
    ∃ i < word.length,
      gcell st.grid (cwPos p.1 p.2.1 p.2.2 i).1 (cwPos p.1 p.2.1 p.2.2 i).2 =
        some (word.getD i ' ') := by
  unfold candidates at hp
  simp only [List.mem_flatMap, List.mem_range] at hp
  obtain ⟨i, hi, r, hr, c, hc, hmem⟩ := hp
  split at hmem
  · rename_i hanchor
    rcases List.mem_append.mp hmem with hm | hm
    · split at hm
      · rename_i hcp
        rw [List.mem_singleton] at hm
        subst hm
        refine ⟨Or.inl rfl, hcp, i, hi, ?_⟩
        unfold cwPos
        simp only
        have : (c : Int) - (i : Int) + (i : Int) = (c : Int) := by ring
        rw [this]
        exact hanchor
      · exact absurd hm (List.not_mem_nil _)
    · split at hm
      · rename_i hcp
        rw [List.mem_singleton] at hm
        subst hm
        refine ⟨Or.inr rfl, hcp, i, hi, ?_⟩
        unfold cwPos
        simp only
        have : (r : Int) - (i : Int) + (i : Int) = (r : Int) := by ring
        rw [this]
        exact hanchor
      · exact absurd hm (List.not_mem_nil _)
  · exact absurd hmem (List.not_mem_nil _)


theorem writeWord_horizontal (g : Grid) (word : List Char) (row col : Int) :
    writeWord g word row col .horizontal = writeH g row col word := by
  unfold writeWord
  rw [if_pos rfl]

theorem writeWord_vertical (g : Grid) (word : List Char) (row col : Int) :
    writeWord g word row col .vertical = writeV g row col word := by
  unfold writeWord
  rw [if_neg (by simp)]

theorem getD_concat_length (l : List PlacedWord) (x : PlacedWord) :
    (l ++ [x]).getD l.length default = x := by
  rw [List.getD_eq_getElem?_getD, List.getElem?_append_right (le_refl _)]
  simp

theorem cwAdd_inv (ws : List WordItem) (st : CW) (word : List Char) (defn : String)
    (row col : Int) (dir : Dir)
    (hdir : dir = .horizontal ∨ dir = .vertical)
    (hcp : canPlace st word row col dir = true)
    (hanchor : st.placedWords = [] ∨ ∃ i, i < word.length ∧
      gcell st.grid (cwPos row col dir i).1 (cwPos row col dir i).2 =
        some (word.getD i ' '))
    (hsrc : ∃ wi ∈ ws, word = wi.word ∧ defn = wi.definition)
    (hinv : CWInv ws st) :
    CWInv ws (addWordToGrid st word defn row col dir) := by
  obtain ⟨hwf, hlets, hcov, hchain, hsrcs⟩ := hinv
  have hpres : ∀ r c : Int, gcell st.grid r c ≠ none →
      gcell (writeWord st.grid word row col dir) r c = gcell st.grid r c := by
    rcases hdir with rfl | rfl
    · rw [writeWord_horizontal]
      exact writeH_preserve st word row col hcp
    · rw [writeWord_vertical]
      exact writeV_preserve st word row col hcp
  have hpos_inB : ∀ i, i < word.length →
      inB st.height st.width (cwPos row col dir i).1 (cwPos row col dir i).2 := by
    rcases hdir with rfl | rfl
    · obtain ⟨h1, h2, -, -⟩ := (canPlaceH_eq st word row col).mp hcp
      push_neg at h1 h2
      intro i hi
      unfold cwPos inB
      simp only
      refine ⟨h2.1, h2.2, by omega, by omega⟩
    · obtain ⟨h1, h2, -, -⟩ := (canPlaceV_eq st word row col .vertical (by simp)).mp hcp
      push_neg at h1 h2
      intro i hi
      unfold cwPos inB
      simp only
      refine ⟨by omega, by omega, h2.1, h2.2⟩
  have hon : ∀ i, i < word.length →
      gcell (writeWord st.grid word row col dir) (cwPos row col dir i).1
        (cwPos row col dir i).2 = some (word.getD i ' ') := by
    rcases hdir with rfl | rfl
    · obtain ⟨h1, h2, -, -⟩ := (canPlaceH_eq st word row col).mp hcp
      push_neg at h1 h2
      intro i hi
      rw [writeWord_horizontal]
      exact gcell_writeH_on st.height st.width word st.grid row col hwf
        h2.1 h2.2 h1.1 h1.2 i hi
    · obtain ⟨h1, h2, -, -⟩ := (canPlaceV_eq st word row col .vertical (by simp)).mp hcp
      push_neg at h1 h2
      intro i hi
      rw [writeWord_vertical]
      exact gcell_writeV_on st.height st.width word st.grid row col hwf
        h2.1 h2.2 h1.1 h1.2 i hi
  have hoffon : ∀ r c : Int, gcell (writeWord st.grid word row col dir) r c ≠ none →
      gcell st.grid r c ≠ none ∨ ∃ i, i < word.length ∧ cwPos row col dir i = (r, c) := by
    intro r c hne
    rcases hdir with rfl | rfl
    · by_cases hoff : r ≠ row ∨ c < col ∨ col + (word.length : Int) ≤ c
      · rw [writeWord_horizontal] at hne
        rw [gcell_writeH_off word st.grid row col r c hoff] at hne
        exact Or.inl hne
      · push_neg at hoff
        refine Or.inr ⟨(c - col).toNat, by omega, ?_⟩
        unfold cwPos
        simp only [Prod.mk.injEq]
        constructor
        · exact hoff.1.symm
        · omega
    · by_cases hoff : c ≠ col ∨ r < row ∨ row + (word.length : Int) ≤ r
      · rw [writeWord_vertical] at hne
        rw [gcell_writeV_off word st.grid row col r c hoff] at hne
        exact Or.inl hne
      · push_neg at hoff
        refine Or.inr ⟨(r - row).toNat, by omega, ?_⟩
        unfold cwPos
        simp only [Prod.mk.injEq]
        constructor
        · omega
        · exact hoff.1.symm
  unfold CWInv addWordToGrid
  simp only
  refine ⟨?_, ?_, ?_, ?_, ?_⟩
  · rcases hdir with rfl | rfl
    · rw [writeWord_horizontal]
      exact writeH_wf st.height st.width word st.grid row col hwf
    · rw [writeWord_vertical]
      exact writeV_wf st.height st.width word st.grid row col hwf
  · intro pw hpw i hi
    rcases List.mem_append.mp hpw with hold | hnew
    · obtain ⟨hb, hl⟩ := hlets pw hold i hi
      exact ⟨hb, by rw [hpres _ _ (by rw [hl]; exact Option.some_ne_none _)]; exact hl⟩
    · rw [List.mem_singleton] at hnew
      subst hnew
      exact ⟨hpos_inB i hi, hon i hi⟩
  · intro r c hne
    rcases hoffon r c hne with hold | ⟨i, hi, hpos⟩
    · obtain ⟨pw, hpw, i, hi, hp⟩ := hcov r c hold
      exact ⟨pw, List.mem_append.mpr (Or.inl hpw), i, hi, hp⟩
    · exact ⟨⟨word, defn, row, col, dir, 0⟩,
        List.mem_append.mpr (Or.inr (List.mem_singleton.mpr rfl)), i, hi, hpos⟩
  · intro k hk1 hk2
    simp only [List.length_append, List.length_singleton] at hk2
    rcases Nat.lt_or_ge k st.placedWords.length with hklt | hkge
    · obtain ⟨j, hj, hshare⟩ := hchain k hk1 hklt
      refine ⟨j, hj, ?_⟩
      rw [List.getD_eq_getElem?_getD, List.getElem?_append_left (by omega),
        ← List.getD_eq_getElem?_getD,
        List.getD_eq_getElem?_getD (st.placedWords ++ _),
        List.getElem?_append_left hklt, ← List.getD_eq_getElem?_getD]
      exact hshare
    · have hkeq : k = st.placedWords.length := by omega
      subst hkeq
      have hne : st.placedWords ≠ [] := by
        intro hcon
        rw [hcon] at hk1
        simp at hk1
      rcases hanchor with hcon | ⟨i, hi, hanch⟩
      · exact absurd hcon hne
      · obtain ⟨pwj, hpwj, i2, hi2, hp2⟩ :=
          hcov _ _ (by rw [hanch]; exact Option.some_ne_none _)
        have hlet2 := (hlets pwj hpwj i2 hi2).2
        rw [hp2] at hlet2
        have hleteq : pwj.word.getD i2 ' ' = word.getD i ' ' := by
          rw [hlet2] at hanch
          exact Option.some.inj hanch
        obtain ⟨j, hj, hjeq⟩ := List.mem_iff_getElem.mp hpwj
        refine ⟨j, hj, ?_⟩
        rw [List.getD_eq_getElem?_getD, List.getElem?_append_left hj,
          List.getElem?_eq_getElem hj]
        simp only [Option.getD_some]
        rw [hjeq, getD_concat_length]
        exact ⟨i2, hi2, i, hi, by rw [hp2]; rfl, hleteq⟩
  · intro pw hpw
    rcases List.mem_append.mp hpw with hold | hnew
    · exact hsrcs pw hold
    · rw [List.mem_singleton] at hnew
      subst hnew
      obtain ⟨wi, hwi, h1, h2⟩ := hsrc
      exact ⟨wi, hwi, h1, h2⟩



theorem nsGT_irrefl (a : Option ℚ) : nsGT a a = false := by
  cases a with
  | none => rfl
  | some x => simp [nsGT]

theorem nsGT_down {a b c : Option ℚ} (h1 : nsGT a b = true) (h2 : nsGT c b = false) :
    nsGT a c = true := by
  cases a <;> cases b <;> cases c <;> simp [nsGT] at * <;> linarith

theorem nsGT_not_up {a b c : Option ℚ} (h1 : nsGT a b = true) (h2 : nsGT c b = false) :
    nsGT c a = false := by
  cases a <;> cases b <;> cases c <;> simp [nsGT] at * <;> linarith

theorem placeWord_cases (st : CW) (b : Bool) (p : Nat) (wi : WordItem) :
    placeWord st b p wi = st ∨
    ∃ row col dir, canPlace st wi.word row col dir = true ∧
      (dir = Dir.horizontal ∨ dir = Dir.vertical) ∧
      (st.placedWords = [] ∨ ∃ i, i < wi.word.length ∧
        gcell st.grid (cwPos row col dir i).1 (cwPos row col dir i).2 =
          some (wi.word.getD i ' ')) ∧
      placeWord st b p wi = addWordToGrid st wi.word wi.definition row col dir := by
  simp only [placeWord]
  split
  · rename_i h0
    have hemp : st.placedWords = [] := List.length_eq_zero.mp h0
    cases b with
    | true =>
      simp only [eq_self_iff_true, if_true, Bool.false_eq_true, if_false]
      split
      · rename_i h1
        exact Or.inr ⟨_, _, _, h1, Or.inl rfl, Or.inl hemp, rfl⟩
      · exact Or.inl rfl
    | false =>
      simp only [eq_self_iff_true, if_true, Bool.false_eq_true, if_false]
      split
      · rename_i h1
        exact Or.inr ⟨_, _, _, h1, Or.inr rfl, Or.inl hemp, rfl⟩
      · split
        · rename_i h2
          exact Or.inr ⟨_, _, _, h2, Or.inl rfl, Or.inl hemp, rfl⟩
        · exact Or.inl rfl
  · split
    · left; rfl
    · rename_i h0 hne
      right
      have hne' : candidates st wi.word ≠ [] := by
        intro h
        rw [h] at hne
        exact hne rfl
      have hlen : 0 < (candidates st wi.word).length := List.length_pos.mpr hne'
      have hslen : (List.insertionSort (fun a b =>
          scorePlacement st wi.word b.1 b.2.1 b.2.2 ≤
            scorePlacement st wi.word a.1 a.2.1 a.2.2)
          (candidates st wi.word)).length = (candidates st wi.word).length :=
        List.length_insertionSort _ _
      have hpf : 0 < min 5 (List.insertionSort (fun a b =>
          scorePlacement st wi.word b.1 b.2.1 b.2.2 ≤
            scorePlacement st wi.word a.1 a.2.1 a.2.2)
          (candidates st wi.word)).length := by
        rw [hslen]
        omega
      have hidx : p % min 5 (List.insertionSort (fun a b =>
          scorePlacement st wi.word b.1 b.2.1 b.2.2 ≤
            scorePlacement st wi.word a.1 a.2.1 a.2.2)
          (candidates st wi.word)).length <
          (List.insertionSort (fun a b =>
          scorePlacement st wi.word b.1 b.2.1 b.2.2 ≤
            scorePlacement st wi.word a.1 a.2.1 a.2.2)
          (candidates st wi.word)).length :=
        lt_of_lt_of_le (Nat.mod_lt _ hpf) (by rw [hslen] at *; exact min_le_right _ _)
      have hmem : (List.insertionSort (fun a b =>
          scorePlacement st wi.word b.1 b.2.1 b.2.2 ≤
            scorePlacement st wi.word a.1 a.2.1 a.2.2)
          (candidates st wi.word)).getD (p % min 5 (List.insertionSort (fun a b =>
          scorePlacement st wi.word b.1 b.2.1 b.2.2 ≤
            scorePlacement st wi.word a.1 a.2.1 a.2.2)
          (candidates st wi.word)).length) (0, 0, .horizontal) ∈
          candidates st wi.word := by
        rw [List.getD_eq_getElem _ _ hidx]
        exact (List.perm_insertionSort _ _).mem_iff.mp (List.getElem_mem _)
      obtain ⟨hdir, hcp, hanch⟩ := mem_candidates hmem
      exact ⟨_, _, _, hcp, hdir, Or.inr hanch, rfl⟩

theorem placeWord_inv (ws : List WordItem) (st : CW) (b : Bool) (p : Nat)
    (wi : WordItem) (hwi : wi ∈ ws) (hinv : CWInv ws st) :
    CWInv ws (placeWord st b p wi) := by
  rcases placeWord_cases st b p wi with heq | ⟨row, col, dir, hcp, hdir, hanch, heq⟩
  · rw [heq]; exact hinv
  · rw [heq]
    exact cwAdd_inv ws st wi.word wi.definition row col dir hdir hcp hanch
      ⟨wi, hwi, rfl, rfl⟩ hinv

theorem placeWord_dims (st : CW) (b : Bool) (p : Nat) (wi : WordItem) :
    (placeWord st b p wi).width = st.width ∧
    (placeWord st b p wi).height = st.height := by
  rcases placeWord_cases st b p wi with heq | ⟨row, col, dir, -, -, -, heq⟩ <;>
    rw [heq] <;> exact ⟨rfl, rfl⟩

theorem placeWord_placed_cases (st : CW) (b : Bool) (p : Nat) (wi : WordItem) :
    placeWord st b p wi = st ∨
    (placeWord st b p wi).placedWords.length = st.placedWords.length + 1 := by
  rcases placeWord_cases st b p wi with heq | ⟨row, col, dir, -, -, -, heq⟩
  · exact Or.inl heq
  · right
    rw [heq]
    simp [addWordToGrid]

theorem pickPermAux_mem {α : Type} (sel : Nat → Nat) :
    ∀ (fuel step : Nat) (l : List α) (x : α), x ∈ pickPermAux sel fuel step l → x ∈ l := by
  intro fuel
  induction fuel with
  | zero =>
    intro step l x hx
    exact absurd hx (List.not_mem_nil x)
  | succ n ih =>
    intro step l x hx
    match l with
    | [] => exact absurd hx (List.not_mem_nil x)
    | a :: as =>
      simp only [pickPermAux] at hx
      rcases List.mem_cons.mp hx with h | h
      · rw [h]
        have hm : sel step % (a :: as).length < (a :: as).length :=
          Nat.mod_lt _ (by simp)
        rw [List.getD_eq_getElem _ _ hm]
        exact List.getElem_mem _
      · exact List.eraseIdx_subset _ _ (ih _ _ _ h)

theorem attemptWords_mem (sel : Nat → Nat) (words : List WordItem) (wi : WordItem)
    (h : wi ∈ attemptWords sel words) : wi ∈ words := by
  unfold attemptWords at h
  have h2 := (List.perm_insertionSort _ _).mem_iff.mp h
  unfold pickPerm at h2
  exact pickPermAux_mem sel _ _ _ _ h2

theorem snd_mem_of_mem_enum {α : Type} {l : List α} {x : Nat × α} (h : x ∈ l.enum) :
    x.2 ∈ l := by
  obtain ⟨i, hi, hx⟩ := List.mem_iff_getElem.mp h
  have hl : i < l.length := by simpa [List.enum_length] using hi
  rw [List.getElem_enum] at hx
  rw [← hx]
  exact List.getElem_mem hl

theorem placeFold_inv (ws : List WordItem) (f : Nat → Bool) (g : Nat → Nat) :
    ∀ (l : List (Nat × WordItem)) (st : CW), (∀ x ∈ l, x.2 ∈ ws) → CWInv ws st →
    CWInv ws (l.foldl (fun st iw => placeWord st (f iw.1) (g iw.1) iw.2) st) := by
  intro l
  induction l with
  | nil =>
    intro st _ h
    exact h
  | cons a as ih =>
    intro st hmem hinv
    simp only [List.foldl_cons]
    exact ih _ (fun x hx => hmem x (List.mem_cons_of_mem a hx))
      (placeWord_inv ws st (f a.1) (g a.1) a.2 (hmem a (List.mem_cons_self a as)) hinv)

theorem placeFold_dims (f : Nat → Bool) (g : Nat → Nat) :
    ∀ (l : List (Nat × WordItem)) (st : CW),
    (l.foldl (fun st iw => placeWord st (f iw.1) (g iw.1) iw.2) st).width = st.width ∧
    (l.foldl (fun st iw => placeWord st (f iw.1) (g iw.1) iw.2) st).height = st.height := by
  intro l
  induction l with
  | nil =>
    intro st
    exact ⟨rfl, rfl⟩
  | cons a as ih =>
    intro st
    simp only [List.foldl_cons]
    obtain ⟨h1, h2⟩ := ih (placeWord st (f a.1) (g a.1) a.2)
    obtain ⟨h3, h4⟩ := placeWord_dims st (f a.1) (g a.1) a.2
    exact ⟨h1.trans h3, h2.trans h4⟩

theorem initCW_inv (ws : List WordItem) (width height : Nat) :
    CWInv ws (initCW width height) := by
  unfold CWInv initCW
  refine ⟨WF_emptyGrid height width, ?_, ?_, ?_, ?_⟩
  · intro pw hpw
    exact absurd hpw (List.not_mem_nil _)
  · intro r c hne
    exact absurd (gcell_emptyGrid height width r c) hne
  · intro k hk1 hk2
    simp at hk2
  · intro pw hpw
    exact absurd hpw (List.not_mem_nil _)

theorem runAttempt_inv (o : Oracle) (k width height : Nat) (ws : List WordItem) :
    CWInv ws (runAttempt o k width height ws) := by
  unfold runAttempt
  refine placeFold_inv ws _ _ _ _ ?_ (initCW_inv ws width height)
  intro x hx
  exact attemptWords_mem (o.shuffle k) ws x.2 (snd_mem_of_mem_enum hx)

theorem runAttempt_dims (o : Oracle) (k width height : Nat) (ws : List WordItem) :
    (runAttempt o k width height ws).width = width ∧
    (runAttempt o k width height ws).height = height := by
  unfold runAttempt
  exact placeFold_dims _ _ _ _


theorem attemptFold_eq_upTo (o : Oracle) (width height : Nat) (ws : List WordItem) :
    attemptFold o width height ws = attemptFoldUpTo o width height ws 120 := rfl

theorem attemptFoldUpTo_succ (o : Oracle) (width height : Nat) (ws : List WordItem)
    (m : Nat) :
    attemptFoldUpTo o width height ws (m + 1) =
      if nsGT (scoreCurrentLayout (runAttempt o m width height ws))
          (attemptFoldUpTo o width height ws m).2.2 then
        (runAttempt o m width height ws, some (runAttempt o m width height ws),
          scoreCurrentLayout (runAttempt o m width height ws))
      else (runAttempt o m width height ws, (attemptFoldUpTo o width height ws m).2.1,
        (attemptFoldUpTo o width height ws m).2.2) := by
  unfold attemptFoldUpTo
  rw [List.range_succ, List.foldl_append, List.foldl_cons, List.foldl_nil]

theorem nsGT_ne_none {a b : Option ℚ} (h : nsGT a b = true) : a ≠ none := by
  cases a with
  | none => simp [nsGT] at h
  | some x => simp

theorem nsGT_none_left (b : Option ℚ) : nsGT none b = false := rfl

theorem nsGT_none_right_eq {a : Option ℚ} (h : nsGT a none = false) : a = none := by
  cases a with
  | none => rfl
  | some x => simp [nsGT] at h

theorem scoreCurrentLayout_ne_none {st : CW} (h : st.placedWords ≠ []) :
    scoreCurrentLayout st ≠ none := by
  unfold scoreCurrentLayout
  rw [if_neg (by simpa using h)]
  simp

theorem scoreCurrentLayout_of_empty {st : CW} (h : st.placedWords = []) :
    scoreCurrentLayout st = none := by
  unfold scoreCurrentLayout
  rw [if_pos (by simp [h])]

theorem attemptFold_spec (o : Oracle) (width height : Nat) (ws : List WordItem) :
    ∀ m : Nat,
    ((attemptFoldUpTo o width height ws m).1 = initCW width height ∨
      ∃ k < m, (attemptFoldUpTo o width height ws m).1 = runAttempt o k width height ws) ∧
    (((attemptFoldUpTo o width height ws m).2.1 = none ∧
        (attemptFoldUpTo o width height ws m).2.2 = (none : Option ℚ) ∧
        ∀ k < m, scoreCurrentLayout (runAttempt o k width height ws) = none) ∨
      (∃ j < m, (attemptFoldUpTo o width height ws m).2.1 =
          some (runAttempt o j width height ws) ∧
        (attemptFoldUpTo o width height ws m).2.2 =
          scoreCurrentLayout (runAttempt o j width height ws) ∧
        scoreCurrentLayout (runAttempt o j width height ws) ≠ none ∧
        (∀ k < m, nsGT (scoreCurrentLayout (runAttempt o k width height ws))
          (scoreCurrentLayout (runAttempt o j width height ws)) = false) ∧
        (∀ k < j, nsGT (scoreCurrentLayout (runAttempt o j width height ws))
          (scoreCurrentLayout (runAttempt o k width height ws)) = true))) := by
  intro m
  induction m with
  | zero =>
    refine ⟨Or.inl rfl, Or.inl ⟨rfl, rfl, ?_⟩⟩
    intro k hk
    omega
  | succ m ih =>
    obtain ⟨-, ih2⟩ := ih
    rw [attemptFoldUpTo_succ]
    by_cases hgt : nsGT (scoreCurrentLayout (runAttempt o m width height ws))
        (attemptFoldUpTo o width height ws m).2.2 = true
    · rw [if_pos hgt]
      refine ⟨Or.inr ⟨m, Nat.lt_succ_self m, rfl⟩, Or.inr ⟨m, Nat.lt_succ_self m,
        rfl, rfl, ?_, ?_, ?_⟩⟩
      · rcases ih2 with ⟨-, h2, -⟩ | ⟨j, -, -, h2, -, -, -⟩ <;> rw [h2] at hgt
        · exact nsGT_ne_none hgt
        · exact nsGT_ne_none hgt
      · intro k hk
        rcases Nat.lt_succ_iff_lt_or_eq.mp hk with hk' | hk'
        · rcases ih2 with ⟨-, h2, hall⟩ | ⟨j, -, -, h2, -, hall, -⟩
          · rw [hall k hk']
            exact nsGT_none_left _
          · rw [h2] at hgt
            exact nsGT_not_up hgt (hall k hk')
        · rw [hk']
          exact nsGT_irrefl _
      · intro k hk
        rcases ih2 with ⟨-, h2, hall⟩ | ⟨j, -, -, h2, -, hall, -⟩
        · rw [h2] at hgt
          rw [hall k hk]
          exact nsGT_down hgt (nsGT_none_left _)
        · rw [h2] at hgt
          exact nsGT_down hgt (hall k hk)
    · rw [if_neg hgt]
      rw [Bool.not_eq_true] at hgt
      refine ⟨Or.inr ⟨m, Nat.lt_succ_self m, rfl⟩, ?_⟩
      rcases ih2 with ⟨h1, h2, hall⟩ | ⟨j, hj, h1, h2, hne, hall, hstrict⟩
      · refine Or.inl ⟨h1, h2, ?_⟩
        intro k hk
        rcases Nat.lt_succ_iff_lt_or_eq.mp hk with hk' | hk'
        · exact hall k hk'
        · rw [hk']
          rw [h2] at hgt
          exact nsGT_none_right_eq hgt
      · refine Or.inr ⟨j, Nat.lt_succ_of_lt hj, h1, h2, hne, ?_, hstrict⟩
        intro k hk
        rcases Nat.lt_succ_iff_lt_or_eq.mp hk with hk' | hk'
        · exact hall k hk'
        · rw [hk']
          rw [h2] at hgt
          exact hgt

theorem generateCore_best (o : Oracle) (width height : Nat) (ws : List WordItem)
    (hne : ∃ k < 120, (runAttempt o k width height ws).placedWords ≠ []) :
    ∃ j < 120, generateCore o width height ws = runAttempt o j width height ws ∧
      (∀ k < 120, nsGT (scoreCurrentLayout (runAttempt o k width height ws))
        (scoreCurrentLayout (runAttempt o j width height ws)) = false) ∧
      (∀ k < j, nsGT (scoreCurrentLayout (runAttempt o j width height ws))
        (scoreCurrentLayout (runAttempt o k width height ws)) = true) := by
  obtain ⟨k0, hk0, hpl⟩ := hne
  rcases (attemptFold_spec o width height ws 120).2 with ⟨-, -, hall⟩ |
    ⟨j, hj, hb1, -, -, hall, hstrict⟩
  · exact absurd (hall k0 hk0) (scoreCurrentLayout_ne_none hpl)
  · refine ⟨j, hj, ?_, hall, hstrict⟩
    simp only [generateCore]
    rw [attemptFold_eq_upTo, hb1]

theorem generateCore_of_best_none (o : Oracle) (width height : Nat)
    (ws : List WordItem) (h : (attemptFoldUpTo o width height ws 120).2.1 = none) :
    generateCore o width height ws =
      { (attemptFoldUpTo o width height ws 120).1 with placedWords := [] } := by
  simp only [generateCore]
  rw [attemptFold_eq_upTo, h]

theorem generateCore_chain (o : Oracle) (width height : Nat) (ws : List WordItem) :
    ∀ k, 1 ≤ k → k < (generateCore o width height ws).placedWords.length →
      ∃ j < k, sharesCell ((generateCore o width height ws).placedWords.getD j default)
        ((generateCore o width height ws).placedWords.getD k default) := by
  rcases (attemptFold_spec o width height ws 120).2 with ⟨h1, -, -⟩ |
    ⟨j, hj, hb1, -, -, -, -⟩
  · intro k hk1 hk2
    rw [generateCore_of_best_none o width height ws h1] at hk2
    simp at hk2
  · have heq : generateCore o width height ws = runAttempt o j width height ws := by
      simp only [generateCore]
      rw [attemptFold_eq_upTo, hb1]
    rw [heq]
    exact (runAttempt_inv o j width height ws).2.2.2.1

theorem runAttempt_of_unplaceable (o : Oracle) (k width height : Nat)
    (ws : List WordItem)
    (H : ∀ (b : Bool) (p : Nat) (wi : WordItem), wi ∈ ws →
      (placeWord (initCW width height) b p wi).placedWords = []) :
    runAttempt o k width height ws = initCW width height := by
  unfold runAttempt
  have aux : ∀ (l : List (Nat × WordItem)), (∀ x ∈ l, x.2 ∈ ws) →
      l.foldl (fun st iw => placeWord st (o.firstDirH k iw.1) (o.pick k iw.1) iw.2)
        (initCW width height) = initCW width height := by
    intro l
    induction l with
    | nil =>
      intro _
      rfl
    | cons a as ih =>
      intro hmem
      simp only [List.foldl_cons]
      have ha := H (o.firstDirH k a.1) (o.pick k a.1) a.2 (hmem a (List.mem_cons_self a as))
      have hstep : placeWord (initCW width height) (o.firstDirH k a.1)
          (o.pick k a.1) a.2 = initCW width height := by
        rcases placeWord_placed_cases (initCW width height) (o.firstDirH k a.1)
            (o.pick k a.1) a.2 with h | h
        · exact h
        · rw [ha] at h
          simp [initCW] at h
      rw [hstep]
      exact ih (fun x hx => hmem x (List.mem_cons_of_mem a hx))
  exact aux _ (fun x hx => attemptWords_mem _ _ _ (snd_mem_of_mem_enum hx))

theorem generate_empty (o : Oracle) (width height : Nat) (ws : List WordItem)
    (H : ∀ (b : Bool) (p : Nat) (wi : WordItem), wi ∈ ws →
      (placeWord (initCW width height) b p wi).placedWords = []) :
    generate o width height ws = (emptyGrid height width, []) := by
  have hrun : ∀ k, runAttempt o k width height ws = initCW width height :=
    fun k => runAttempt_of_unplaceable o k width height ws H
  obtain ⟨hfirst, hsec⟩ := attemptFold_spec o width height ws 120
  have hcore : generateCore o width height ws = initCW width height := by
    rcases hsec with ⟨h1, -, -⟩ | ⟨j, hj, hb1, hb2, hbne, -, -⟩
    · have hfst : (attemptFoldUpTo o width height ws 120).1 = initCW width height := by
        rcases hfirst with h | ⟨k, hk, h⟩
        · exact h
        · rw [h, hrun k]
      rw [generateCore_of_best_none o width height ws h1, hfst]
      rfl
    · rw [hrun j] at hbne
      exact absurd (scoreCurrentLayout_of_empty rfl) hbne
  have hocc : occList (initCW width height) = [] := by
    unfold occList
    rw [List.filter_eq_nil_iff]
    intro p hp
    simp [initCW, gcell_emptyGrid]
  have hbox : boundingBox (initCW width height) = none := by
    unfold boundingBox
    rw [hocc]
  have hcrop : cropToBoundingBox (initCW width height) 1 = initCW width height := by
    unfold cropToBoundingBox
    rw [hbox]
  unfold generate
  rw [hcore, hcrop]
  rfl


/-- C6: the crossword engine is a total function that degrades gracefully:
every `_placeWord` step either leaves the state unchanged (the word is dropped)
or adds the word at a `_canPlace`-approved position, and when no input word
admits any first placement the call returns the original all-empty
`height × width` grid with an empty placement list instead of failing. -/
theorem c6_best_effort (o : Oracle) (width height : Nat) (ws : List WordItem) :
    (∀ (st : CW) (b : Bool) (p : Nat) (wi : WordItem),
      placeWord st b p wi = st ∨
      ∃ row col dir, canPlace st wi.word row col dir = true ∧
        placeWord st b p wi = addWordToGrid st wi.word wi.definition row col dir) ∧
    ((∀ (b : Bool) (p : Nat) (wi : WordItem), wi ∈ ws →
        (placeWord (initCW width height) b p wi).placedWords = []) →
      generate o width height ws = (emptyGrid height width, []) ∧
      WF height width (emptyGrid height width) ∧
      ∀ r c : Int, gcell (emptyGrid height width) r c = none) := by
  constructor
  · intro st b p wi
    rcases placeWord_cases st b p wi with h | ⟨row, col, dir, hcp, -, -, heq⟩
    · exact Or.inl h
    · exact Or.inr ⟨row, col, dir, hcp, heq⟩
  · intro H
    exact ⟨generate_empty o width height ws H, WF_emptyGrid height width,
      fun r c => gcell_emptyGrid height width r c⟩

/-- Witness for C6: on a 1×1 grid no two-letter word fits, and the call returns
the empty 1×1 grid and no placements. -/
theorem c6_best_effort_witness :
    generate oracleZ 1 1 [⟨['А', 'Б'], "d"⟩] = (emptyGrid 1 1, []) := by
  refine ((c6_best_effort oracleZ 1 1 [⟨['А', 'Б'], "d"⟩]).2 ?_).1
  intro b p wi hwi
  rw [List.mem_singleton] at hwi
  subst hwi
  cases b <;> rfl

theorem cwPosOf_shift (w : PlacedWord) (a b : Int) (i : Nat) :
    cwPosOf { w with row := w.row - a, col := w.col - b } i =
      ((cwPosOf w i).1 - a, (cwPosOf w i).2 - b) := by
  unfold cwPosOf cwPos
  cases w.direction <;> simp <;> ring

theorem sharesCell_shift {w1 w2 : PlacedWord} (a b : Int) (h : sharesCell w1 w2) :
    sharesCell { w1 with row := w1.row - a, col := w1.col - b }
      { w2 with row := w2.row - a, col := w2.col - b } := by
  obtain ⟨i1, h1, i2, h2, hpos, hlet⟩ := h
  refine ⟨i1, h1, i2, h2, ?_, hlet⟩
  rw [cwPosOf_shift, cwPosOf_shift, hpos]

theorem chain_map (pws : List PlacedWord) (f : PlacedWord → PlacedWord)
    (hf : ∀ u v : PlacedWord, sharesCell u v → sharesCell (f u) (f v))
    (h : ∀ k, 1 ≤ k → k < pws.length → ∃ j < k,
      sharesCell (pws.getD j default) (pws.getD k default)) :
    ∀ k, 1 ≤ k → k < (pws.map f).length → ∃ j < k,
      sharesCell ((pws.map f).getD j default) ((pws.map f).getD k default) := by
  intro k hk1 hk2
  rw [List.length_map] at hk2
  obtain ⟨j, hj, hs⟩ := h k hk1 hk2
  refine ⟨j, hj, ?_⟩
  rw [List.getD_eq_getElem _ _ (by rw [List.length_map]; omega),
    List.getD_eq_getElem _ _ (by rw [List.length_map]; omega),
    List.getElem_map, List.getElem_map]
  apply hf
  rw [List.getD_eq_getElem _ _ (by omega), List.getD_eq_getElem _ _ (by omega)] at hs
  exact hs

theorem sharesCell_assign_fun (sorted : List (Int × Int)) (u v : PlacedWord)
    (h : sharesCell u v) :
    sharesCell
      (match sorted.findIdx? fun p => decide (p = (u.row, u.col)) with
       | some i => { u with number := i + 1 }
       | none => { u with number := 0 })
      (match sorted.findIdx? fun p => decide (p = (v.row, v.col)) with
       | some i => { v with number := i + 1 }
       | none => { v with number := 0 }) := by
  cases sorted.findIdx? fun p => decide (p = (u.row, u.col)) <;>
    cases sorted.findIdx? fun p => decide (p = (v.row, v.col)) <;> exact h

theorem generate_chain (o : Oracle) (width height : Nat) (ws : List WordItem) :
    ∀ k, 1 ≤ k → k < ((generate o width height ws).2).length → ∃ j < k,
      sharesCell (((generate o width height ws).2).getD j default)
        (((generate o width height ws).2).getD k default) := by
  have hbase := generateCore_chain o width height ws
  have hcropcases : (cropToBoundingBox (generateCore o width height ws) 1).placedWords =
      (generateCore o width height ws).placedWords ∨
      ∃ a b : Int, (cropToBoundingBox (generateCore o width height ws) 1).placedWords =
        (generateCore o width height ws).placedWords.map
          (fun w => { w with row := w.row - a, col := w.col - b }) := by
    simp only [cropToBoundingBox]
    cases boundingBox (generateCore o width height ws) with
    | none => exact Or.inl rfl
    | some q => exact Or.inr ⟨_, _, rfl⟩
  have hchain2 : ∀ k, 1 ≤ k →
      k < (cropToBoundingBox (generateCore o width height ws) 1).placedWords.length →
      ∃ j < k, sharesCell
        ((cropToBoundingBox (generateCore o width height ws) 1).placedWords.getD j default)
        ((cropToBoundingBox (generateCore o width height ws) 1).placedWords.getD k default) := by
    rcases hcropcases with h | ⟨a, b, h⟩
    · rw [h]
      exact hbase
    · rw [h]
      exact chain_map _ _ (fun u v => sharesCell_shift a b) hbase
  have hassign : (generate o width height ws).2 =
      (cropToBoundingBox (generateCore o width height ws) 1).placedWords.map
        (fun w => match (List.insertionSort lexLe (startsOf
            (cropToBoundingBox (generateCore o width height ws) 1).placedWords)).findIdx?
            (fun p => decide (p = (w.row, w.col))) with
          | some i => { w with number := i + 1 }
          | none => { w with number := 0 }) := rfl
  rw [hassign]
  exact chain_map _ _ (fun u v h => sharesCell_assign_fun _ u v h) hchain2

/-- C1: the output placements of `generate` are anchored: every word after the
first shares a letter-matching cell with an earlier word, hence every word of a
≥2-word output intersects another word and the shares-a-cell graph on the
output is one connected component. -/
theorem c1_connected (o : Oracle) (width height : Nat) (ws : List WordItem)
    (pws : List PlacedWord) (hp : pws = (generate o width height ws).2) :
    (∀ k, 1 ≤ k → k < pws.length → ∃ j < k,
      sharesCell (pws.getD j default) (pws.getD k default)) ∧
    (2 ≤ pws.length → ∀ i < pws.length, ∃ j < pws.length, j ≠ i ∧
      sharesCell (pws.getD i default) (pws.getD j default)) ∧
    (∀ i < pws.length, ∀ j < pws.length,
      Relation.ReflTransGen
        (fun a b => a < pws.length ∧ b < pws.length ∧
          sharesCell (pws.getD a default) (pws.getD b default)) i j) := by
  have hchain : ∀ k, 1 ≤ k → k < pws.length → ∃ j < k,
      sharesCell (pws.getD j default) (pws.getD k default) := by
    rw [hp]
    exact generate_chain o width height ws
  refine ⟨hchain, ?_, ?_⟩
  · intro hlen i hi
    rcases Nat.eq_zero_or_pos i with hi0 | hipos
    · subst hi0
      obtain ⟨j, hj, hs⟩ := hchain 1 le_rfl (by omega)
      have hj0 : j = 0 := by omega
      subst hj0
      exact ⟨1, by omega, by omega, hs⟩
    · obtain ⟨j, hj, hs⟩ := hchain i hipos hi
      exact ⟨j, by omega, by omega, sharesCell_symm hs⟩
  · have hsymm : Symmetric (fun a b => a < pws.length ∧ b < pws.length ∧
        sharesCell (pws.getD a default) (pws.getD b default)) := by
      intro a b ⟨ha, hb, hs⟩
      exact ⟨hb, ha, sharesCell_symm hs⟩
    have hto0 : ∀ i, i < pws.length → Relation.ReflTransGen
        (fun a b => a < pws.length ∧ b < pws.length ∧
          sharesCell (pws.getD a default) (pws.getD b default)) i 0 := by
      intro i
      induction i using Nat.strong_induction_on with
      | _ i ih =>
        intro hi
        rcases Nat.eq_zero_or_pos i with hi0 | hipos
        · subst hi0
          exact Relation.ReflTransGen.refl
        · obtain ⟨j, hj, hs⟩ := hchain i hipos hi
          exact Relation.ReflTransGen.head
            ⟨hi, by omega, sharesCell_symm hs⟩ (ih j hj (by omega))
    intro i hi j hj
    exact (hto0 i hi).trans ((Relation.ReflTransGen.symmetric hsymm) (hto0 j hj))

section
set_option allowUnsafeReducibility true
attribute [local semireducible] Rat.add Rat.mul Rat.div Rat.sub Rat.neg Rat.inv Rat.blt Rat.normalize
set_option maxRecDepth 100000 in
/-- Witness for C1: in the concrete 3×3 two-word crossword, the second placed
word shares a letter-matching cell with the first. -/
theorem c1_connected_witness :
    1 < ((generate oracleZ 3 3 [⟨['А', 'Б'], "a"⟩, ⟨['Б', 'А'], "b"⟩]).2).length ∧
    ∃ j < 1, sharesCell
      (((generate oracleZ 3 3 [⟨['А', 'Б'], "a"⟩, ⟨['Б', 'А'], "b"⟩]).2).getD j default)
      (((generate oracleZ 3 3 [⟨['А', 'Б'], "a"⟩, ⟨['Б', 'А'], "b"⟩]).2).getD 1 default) :=
  ⟨by decide, (c1_connected oracleZ 3 3 [⟨['А', 'Б'], "a"⟩, ⟨['Б', 'А'], "b"⟩] _ rfl).1
    1 le_rfl (by decide)⟩
end


theorem placeWord_pick (st : CW) (b : Bool) (p : Nat) (wi : WordItem)
    (h0 : st.placedWords ≠ []) (hne : candidates st wi.word ≠ []) :
    ∃ q ∈ candidates st wi.word,
      placeWord st b p wi = addWordToGrid st wi.word wi.definition q.1 q.2.1 q.2.2 ∧
      (candidates st wi.word).countP (fun x =>
        decide (scorePlacement st wi.word q.1 q.2.1 q.2.2 <
          scorePlacement st wi.word x.1 x.2.1 x.2.2)) <
        min 5 (candidates st wi.word).length := by
  have hl0 : ¬ st.placedWords.length = 0 := by
    simpa using h0
  have hie : ¬ (candidates st wi.word).isEmpty = true := by
    simpa using hne
  simp only [placeWord]
  rw [if_neg hl0, if_neg hie]
  set r := fun a b : Int × Int × Dir =>
    scorePlacement st wi.word b.1 b.2.1 b.2.2 ≤ scorePlacement st wi.word a.1 a.2.1 a.2.2
    with hrdef
  haveI htot : IsTotal (Int × Int × Dir) r := ⟨fun a c => le_total _ _⟩
  haveI htrans : IsTrans (Int × Int × Dir) r := ⟨fun a c d h1 h2 => le_trans h2 h1⟩
  have hsorted : List.Sorted r (List.insertionSort r (candidates st wi.word)) :=
    List.sorted_insertionSort r (candidates st wi.word)
  have hslen : (List.insertionSort r (candidates st wi.word)).length =
      (candidates st wi.word).length := List.length_insertionSort _ _
  have hclen : 0 < (candidates st wi.word).length := List.length_pos.mpr hne
  have hpf : 0 < min 5 (List.insertionSort r (candidates st wi.word)).length := by
    rw [hslen]
    omega
  have hidx : p % min 5 (List.insertionSort r (candidates st wi.word)).length <
      (List.insertionSort r (candidates st wi.word)).length :=
    lt_of_lt_of_le (Nat.mod_lt _ hpf) (min_le_right _ _)
  have hq : (List.insertionSort r (candidates st wi.word)).getD
      (p % min 5 (List.insertionSort r (candidates st wi.word)).length)
      (0, 0, Dir.horizontal) =
      (List.insertionSort r (candidates st wi.word))[p % min 5
        (List.insertionSort r (candidates st wi.word)).length] :=
    List.getD_eq_getElem _ _ hidx
  have hmemc : (List.insertionSort r (candidates st wi.word)).getD
      (p % min 5 (List.insertionSort r (candidates st wi.word)).length)
      (0, 0, Dir.horizontal) ∈ candidates st wi.word := by
    rw [hq]
    exact (List.perm_insertionSort r _).mem_iff.mp (List.getElem_mem hidx)
  refine ⟨_, hmemc, rfl, ?_⟩
  have hcountperm : ∀ P : Int × Int × Dir → Bool,
      (candidates st wi.word).countP P =
        (List.insertionSort r (candidates st wi.word)).countP P :=
    fun P => ((List.perm_insertionSort r _).countP_eq P).symm
  rw [hcountperm]
  have hdropzero : ((List.insertionSort r (candidates st wi.word)).drop
      (p % min 5 (List.insertionSort r (candidates st wi.word)).length)).countP
      (fun x => decide (scorePlacement st wi.word
        ((List.insertionSort r (candidates st wi.word)).getD
          (p % min 5 (List.insertionSort r (candidates st wi.word)).length)
          (0, 0, Dir.horizontal)).1
        ((List.insertionSort r (candidates st wi.word)).getD
          (p % min 5 (List.insertionSort r (candidates st wi.word)).length)
          (0, 0, Dir.horizontal)).2.1
        ((List.insertionSort r (candidates st wi.word)).getD
          (p % min 5 (List.insertionSort r (candidates st wi.word)).length)
          (0, 0, Dir.horizontal)).2.2 <
        scorePlacement st wi.word x.1 x.2.1 x.2.2)) = 0 := by
    rw [List.countP_eq_zero]
    intro x hx
    have hxle : r ((List.insertionSort r (candidates st wi.word)).getD
        (p % min 5 (List.insertionSort r (candidates st wi.word)).length)
        (0, 0, Dir.horizontal)) x := by
      rw [hq]
      have hd : (List.insertionSort r (candidates st wi.word)).drop
          (p % min 5 (List.insertionSort r (candidates st wi.word)).length) =
          (List.insertionSort r (candidates st wi.word))[p % min 5
            (List.insertionSort r (candidates st wi.word)).length] ::
          (List.insertionSort r (candidates st wi.word)).drop
            (p % min 5 (List.insertionSort r (candidates st wi.word)).length + 1) :=
        List.drop_eq_getElem_cons hidx
      rw [hd] at hx
      rcases List.mem_cons.mp hx with h | h
      · rw [h]
      · have hsd : List.Pairwise r ((List.insertionSort r (candidates st wi.word)).drop
            (p % min 5 (List.insertionSort r (candidates st wi.word)).length)) :=
          List.Pairwise.sublist (List.drop_sublist _ _) hsorted
        rw [hd] at hsd
        exact (List.pairwise_cons.mp hsd).1 x h
    simp only [decide_eq_true_eq]
    exact not_lt.mpr hxle
  calc (List.insertionSort r (candidates st wi.word)).countP _
      = ((List.insertionSort r (candidates st wi.word)).take
          (p % min 5 (List.insertionSort r (candidates st wi.word)).length)).countP _ +
        ((List.insertionSort r (candidates st wi.word)).drop
          (p % min 5 (List.insertionSort r (candidates st wi.word)).length)).countP _ := by
        rw [← List.countP_append, List.take_append_drop]
    _ ≤ p % min 5 (List.insertionSort r (candidates st wi.word)).length + 0 := by
        rw [hdropzero]
        refine Nat.add_le_add_right (le_trans (List.countP_le_length _) ?_) 0
        rw [List.length_take]
        exact min_le_left _ _
    _ < min 5 (candidates st wi.word).length := by
        rw [← hslen]
        have := Nat.mod_lt p hpf
        omega

/-- C4: the random choice in `_placeWord` is one of the top `min(5, n)`
candidates by `_scorePlacement` (fewer than `min(5, n)` candidates strictly
outscore it), and across the 120 attempts `generate` keeps the attempt whose
`_scoreCurrentLayout` no other attempt strictly exceeds, an earlier attempt
winning ties because only a strict comparison replaces the best
(`scorePlacement` and `scoreCurrentLayout` are the two score formulas, with
`none` playing `-Infinity`). -/
theorem c4_attempt_scoring (o : Oracle) (width height : Nat) (ws : List WordItem) :
    (∀ (st : CW) (b : Bool) (p : Nat) (wi : WordItem),
      st.placedWords ≠ [] → candidates st wi.word ≠ [] →
      ∃ q ∈ candidates st wi.word,
        placeWord st b p wi = addWordToGrid st wi.word wi.definition q.1 q.2.1 q.2.2 ∧
        (candidates st wi.word).countP (fun x =>
          decide (scorePlacement st wi.word q.1 q.2.1 q.2.2 <
            scorePlacement st wi.word x.1 x.2.1 x.2.2)) <
          min 5 (candidates st wi.word).length) ∧
    ((∃ k < 120, (runAttempt o k width height ws).placedWords ≠ []) →
      ∃ j < 120, generateCore o width height ws = runAttempt o j width height ws ∧
        (∀ k < 120, nsGT (scoreCurrentLayout (runAttempt o k width height ws))
          (scoreCurrentLayout (runAttempt o j width height ws)) = false) ∧
        (∀ k < j, nsGT (scoreCurrentLayout (runAttempt o j width height ws))
          (scoreCurrentLayout (runAttempt o k width height ws)) = true)) :=
  ⟨fun st b p wi h0 hne => placeWord_pick st b p wi h0 hne,
    generateCore_best o width height ws⟩

section
set_option allowUnsafeReducibility true
attribute [local semireducible] Rat.add Rat.mul Rat.div Rat.sub Rat.neg Rat.inv Rat.blt Rat.normalize
set_option maxRecDepth 100000 in
/-- Witness for C4: the concrete second-word placement is a top-5 candidate and
a best attempt exists among the 120. -/
theorem c4_attempt_scoring_witness :
    (∃ q ∈ candidates cwSt0 ['Б', 'А'],
      placeWord cwSt0 true 0 ⟨['Б', 'А'], "b"⟩ =
        addWordToGrid cwSt0 ['Б', 'А'] "b" q.1 q.2.1 q.2.2 ∧
      (candidates cwSt0 ['Б', 'А']).countP (fun x =>
        decide (scorePlacement cwSt0 ['Б', 'А'] q.1 q.2.1 q.2.2 <
          scorePlacement cwSt0 ['Б', 'А'] x.1 x.2.1 x.2.2)) <
        min 5 (candidates cwSt0 ['Б', 'А']).length) ∧
    ∃ j < 120, generateCore oracleZ 3 3 cwWords = runAttempt oracleZ j 3 3 cwWords ∧
      (∀ k < 120, nsGT (scoreCurrentLayout (runAttempt oracleZ k 3 3 cwWords))
        (scoreCurrentLayout (runAttempt oracleZ j 3 3 cwWords)) = false) ∧
      (∀ k < j, nsGT (scoreCurrentLayout (runAttempt oracleZ j 3 3 cwWords))
        (scoreCurrentLayout (runAttempt oracleZ k 3 3 cwWords)) = true) :=
  ⟨(c4_attempt_scoring oracleZ 3 3 cwWords).1 cwSt0 true 0 ⟨['Б', 'А'], "b"⟩
      (by decide) (by decide),
    (c4_attempt_scoring oracleZ 3 3 cwWords).2 ⟨0, by decide, by decide⟩⟩
end


theorem occList_mem (st : CW) (r c : Int) :
    (r, c) ∈ occList st ↔
      inB st.height st.width r c ∧ gcell st.grid r c ≠ none := by
  unfold occList
  rw [List.mem_filter, allCells_mem]
  simp [Option.isSome_iff_ne_none]

theorem bboxFold_spec (ps : List (Int × Int)) : ∀ (b : Int × Int × Int × Int),
    ((ps.foldl (fun b q => (min b.1 q.1, max b.2.1 q.1, min b.2.2.1 q.2,
        max b.2.2.2 q.2)) b).1 ≤ b.1 ∧
      b.2.1 ≤ (ps.foldl (fun b q => (min b.1 q.1, max b.2.1 q.1, min b.2.2.1 q.2,
        max b.2.2.2 q.2)) b).2.1 ∧
      (ps.foldl (fun b q => (min b.1 q.1, max b.2.1 q.1, min b.2.2.1 q.2,
        max b.2.2.2 q.2)) b).2.2.1 ≤ b.2.2.1 ∧
      b.2.2.2 ≤ (ps.foldl (fun b q => (min b.1 q.1, max b.2.1 q.1, min b.2.2.1 q.2,
        max b.2.2.2 q.2)) b).2.2.2) ∧
    (∀ q ∈ ps,
      (ps.foldl (fun b q => (min b.1 q.1, max b.2.1 q.1, min b.2.2.1 q.2,
        max b.2.2.2 q.2)) b).1 ≤ q.1 ∧
      q.1 ≤ (ps.foldl (fun b q => (min b.1 q.1, max b.2.1 q.1, min b.2.2.1 q.2,
        max b.2.2.2 q.2)) b).2.1 ∧
      (ps.foldl (fun b q => (min b.1 q.1, max b.2.1 q.1, min b.2.2.1 q.2,
        max b.2.2.2 q.2)) b).2.2.1 ≤ q.2 ∧
      q.2 ≤ (ps.foldl (fun b q => (min b.1 q.1, max b.2.1 q.1, min b.2.2.1 q.2,
        max b.2.2.2 q.2)) b).2.2.2) ∧
    ((ps.foldl (fun b q => (min b.1 q.1, max b.2.1 q.1, min b.2.2.1 q.2,
        max b.2.2.2 q.2)) b).1 = b.1 ∨ ∃ q ∈ ps, q.1 =
      (ps.foldl (fun b q => (min b.1 q.1, max b.2.1 q.1, min b.2.2.1 q.2,
        max b.2.2.2 q.2)) b).1) ∧
    ((ps.foldl (fun b q => (min b.1 q.1, max b.2.1 q.1, min b.2.2.1 q.2,
        max b.2.2.2 q.2)) b).2.1 = b.2.1 ∨ ∃ q ∈ ps, q.1 =
      (ps.foldl (fun b q => (min b.1 q.1, max b.2.1 q.1, min b.2.2.1 q.2,
        max b.2.2.2 q.2)) b).2.1) ∧
    ((ps.foldl (fun b q => (min b.1 q.1, max b.2.1 q.1, min b.2.2.1 q.2,
        max b.2.2.2 q.2)) b).2.2.1 = b.2.2.1 ∨ ∃ q ∈ ps, q.2 =
      (ps.foldl (fun b q => (min b.1 q.1, max b.2.1 q.1, min b.2.2.1 q.2,
        max b.2.2.2 q.2)) b).2.2.1) ∧
    ((ps.foldl (fun b q => (min b.1 q.1, max b.2.1 q.1, min b.2.2.1 q.2,
        max b.2.2.2 q.2)) b).2.2.2 = b.2.2.2 ∨ ∃ q ∈ ps, q.2 =
      (ps.foldl (fun b q => (min b.1 q.1, max b.2.1 q.1, min b.2.2.1 q.2,
        max b.2.2.2 q.2)) b).2.2.2) := by
  induction ps with
  | nil =>
    intro b
    refine ⟨⟨le_refl _, le_refl _, le_refl _, le_refl _⟩, ?_, Or.inl rfl, Or.inl rfl,
      Or.inl rfl, Or.inl rfl⟩
    intro q hq
    exact absurd hq (List.not_mem_nil q)
  | cons p ps ih =>
    intro b
    simp only [List.foldl_cons]
    obtain ⟨⟨i1, i2, i3, i4⟩, hall, a1, a2, a3, a4⟩ :=
      ih (min b.1 p.1, max b.2.1 p.1, min b.2.2.1 p.2, max b.2.2.2 p.2)
    refine ⟨⟨le_trans i1 (min_le_left _ _), le_trans (le_max_left _ _) i2,
      le_trans i3 (min_le_left _ _), le_trans (le_max_left _ _) i4⟩, ?_, ?_, ?_, ?_, ?_⟩
    · intro q hq
      rcases List.mem_cons.mp hq with h | h
      · subst h
        exact ⟨le_trans i1 (min_le_right _ _), le_trans (le_max_right _ _) i2,
          le_trans i3 (min_le_right _ _), le_trans (le_max_right _ _) i4⟩
      · exact hall q h
    · rcases a1 with h | ⟨q, hq, h⟩
      · rw [h]
        rcases min_choice b.1 p.1 with h2 | h2
        · rw [h2]
          exact Or.inl rfl
        · rw [h2]
          exact Or.inr ⟨p, List.mem_cons_self p ps, rfl⟩
      · exact Or.inr ⟨q, List.mem_cons_of_mem p hq, h⟩
    · rcases a2 with h | ⟨q, hq, h⟩
      · rw [h]
        rcases max_choice b.2.1 p.1 with h2 | h2
        · rw [h2]
          exact Or.inl rfl
        · rw [h2]
          exact Or.inr ⟨p, List.mem_cons_self p ps, rfl⟩
      · exact Or.inr ⟨q, List.mem_cons_of_mem p hq, h⟩
    · rcases a3 with h | ⟨q, hq, h⟩
      · rw [h]
        rcases min_choice b.2.2.1 p.2 with h2 | h2
        · rw [h2]
          exact Or.inl rfl
        · rw [h2]
          exact Or.inr ⟨p, List.mem_cons_self p ps, rfl⟩
      · exact Or.inr ⟨q, List.mem_cons_of_mem p hq, h⟩
    · rcases a4 with h | ⟨q, hq, h⟩
      · rw [h]
        rcases max_choice b.2.2.2 p.2 with h2 | h2
        · rw [h2]
          exact Or.inl rfl
        · rw [h2]
          exact Or.inr ⟨p, List.mem_cons_self p ps, rfl⟩
      · exact Or.inr ⟨q, List.mem_cons_of_mem p hq, h⟩

theorem boundingBox_some (st : CW) (h : occList st ≠ []) :
    ∃ minR maxR minC maxC : Int,
      boundingBox st = some (minR, maxR, minC, maxC) ∧
      (∀ q ∈ occList st, minR ≤ q.1 ∧ q.1 ≤ maxR ∧ minC ≤ q.2 ∧ q.2 ≤ maxC) ∧
      (∃ q ∈ occList st, q.1 = minR) ∧ (∃ q ∈ occList st, q.1 = maxR) ∧
      (∃ q ∈ occList st, q.2 = minC) ∧ (∃ q ∈ occList st, q.2 = maxC) := by
  unfold boundingBox
  cases hocc : occList st with
  | nil => exact absurd hocc h
  | cons p ps =>
    obtain ⟨⟨i1, i2, i3, i4⟩, hall, a1, a2, a3, a4⟩ :=
      bboxFold_spec ps (p.1, p.1, p.2, p.2)
    refine ⟨_, _, _, _, rfl, ?_, ?_, ?_, ?_, ?_⟩
    · intro q hq
      rcases List.mem_cons.mp hq with hh | hh
      · subst hh
        exact ⟨i1, i2, i3, i4⟩
      · exact hall q hh
    · rcases a1 with hh | ⟨q, hq, hh⟩
      · exact ⟨p, List.mem_cons_self p ps, hh.symm⟩
      · exact ⟨q, List.mem_cons_of_mem p hq, hh⟩
    · rcases a2 with hh | ⟨q, hq, hh⟩
      · exact ⟨p, List.mem_cons_self p ps, hh.symm⟩
      · exact ⟨q, List.mem_cons_of_mem p hq, hh⟩
    · rcases a3 with hh | ⟨q, hq, hh⟩
      · exact ⟨p, List.mem_cons_self p ps, hh.symm⟩
      · exact ⟨q, List.mem_cons_of_mem p hq, hh⟩
    · rcases a4 with hh | ⟨q, hq, hh⟩
      · exact ⟨p, List.mem_cons_self p ps, hh.symm⟩
      · exact ⟨q, List.mem_cons_of_mem p hq, hh⟩

theorem generateCore_inv (o : Oracle) (width height : Nat) (ws : List WordItem)
    (hne : (generateCore o width height ws).placedWords ≠ []) :
    CWInv ws (generateCore o width height ws) := by
  rcases (attemptFold_spec o width height ws 120).2 with ⟨h1, -, -⟩ |
    ⟨j, hj, hb1, -, -, -, -⟩
  · exact absurd (by rw [generateCore_of_best_none o width height ws h1]) hne
  · have heq : generateCore o width height ws = runAttempt o j width height ws := by
      simp only [generateCore]
      rw [attemptFold_eq_upTo, hb1]
    rw [heq]
    exact runAttempt_inv o j width height ws



theorem gcell_window (g : Grid) (a b rs cs : Nat) :
    ∀ r c : Int, 0 ≤ r → r.toNat < rs → 0 ≤ c → c.toNat < cs →
      gcell (((g.drop a).take rs).map (fun rowl => (rowl.drop b).take cs)) r c =
        gcell g (r + (a : Int)) (c + (b : Int)) := by
  intro r c hr hrs hc hcs
  unfold gcell
  rw [if_neg (by omega), if_neg (by omega)]
  have hra : (r + (a : Int)).toNat = a + r.toNat := by omega
  have hcb : (c + (b : Int)).toNat = b + c.toNat := by omega
  rw [hra, hcb]
  simp only [List.getD_eq_getElem?_getD, List.getElem?_map]
  rw [List.getElem?_take_of_lt hrs, List.getElem?_drop]
  cases hrow : g[a + r.toNat]? with
  | none => rfl
  | some rowl =>
    simp only [Option.map_some', Option.getD_some]
    rw [List.getElem?_take_of_lt hcs, List.getElem?_drop]

theorem crop_fields (st : CW) (margin : Nat) (minR maxR minC maxC : Int)
    (hbox : boundingBox st = some (minR, maxR, minC, maxC)) :
    (cropToBoundingBox st margin).grid =
      ((st.grid.drop (max 0 (minR - (margin : Int))).toNat).take
        ((min ((st.height : Int) - 1) (maxR + (margin : Int)) + 1 -
          max 0 (minR - (margin : Int))).toNat)).map (fun rowl =>
        (rowl.drop (max 0 (minC - (margin : Int))).toNat).take
          ((min ((st.width : Int) - 1) (maxC + (margin : Int)) + 1 -
            max 0 (minC - (margin : Int))).toNat)) ∧
    (cropToBoundingBox st margin).height = (cropToBoundingBox st margin).grid.length ∧
    (cropToBoundingBox st margin).width =
      ((cropToBoundingBox st margin).grid.headD []).length ∧
    (cropToBoundingBox st margin).placedWords = st.placedWords.map (fun w =>
      { w with row := w.row - max 0 (minR - (margin : Int)),
               col := w.col - max 0 (minC - (margin : Int)) }) := by
  simp only [cropToBoundingBox]
  rw [hbox]
  exact ⟨rfl, rfl, rfl, rfl⟩

/-- C5: with at least one placed word, the winning layout's bounding box is the
smallest rectangle holding all non-empty cells; the returned grid is that box
expanded by the 1-cell margin clamped to the grid bounds, its cells are the
corresponding cells of the winning grid, placements are translated by the crop
offsets and still index their letters, and each side of the cropped grid either
holds a non-empty cell or lies exactly 1 cell beyond the true content bound. -/
theorem c5_crop (o : Oracle) (width height : Nat) (ws : List WordItem)
    (st cr : CW) (hst : st = generateCore o width height ws)
    (hcr : cr = cropToBoundingBox st 1)
    (hws : ∀ wi ∈ ws, wi.word ≠ [])
    (hne : st.placedWords ≠ []) :
    (generate o width height ws).1 = cr.grid ∧
    ∃ minR maxR minC maxC : Int,
      boundingBox st = some (minR, maxR, minC, maxC) ∧
      (∀ r c : Int, gcell st.grid r c ≠ none →
        minR ≤ r ∧ r ≤ maxR ∧ minC ≤ c ∧ c ≤ maxC) ∧
      (∃ c, gcell st.grid minR c ≠ none) ∧
      (∃ c, gcell st.grid maxR c ≠ none) ∧
      (∃ r, gcell st.grid r minC ≠ none) ∧
      (∃ r, gcell st.grid r maxC ≠ none) ∧
      ∃ minR2 maxR2 minC2 maxC2 : Int,
        minR2 = max 0 (minR - 1) ∧
        maxR2 = min ((st.height : Int) - 1) (maxR + 1) ∧
        minC2 = max 0 (minC - 1) ∧
        maxC2 = min ((st.width : Int) - 1) (maxC + 1) ∧
        (cr.height : Int) = maxR2 + 1 - minR2 ∧
        (cr.width : Int) = maxC2 + 1 - minC2 ∧
        WF cr.height cr.width cr.grid ∧
        (∀ r c : Int, 0 ≤ r → r < maxR2 + 1 - minR2 → 0 ≤ c → c < maxC2 + 1 - minC2 →
          gcell cr.grid r c = gcell st.grid (r + minR2) (c + minC2)) ∧
        cr.placedWords = st.placedWords.map
          (fun w => { w with row := w.row - minR2, col := w.col - minC2 }) ∧
        (∀ pw ∈ cr.placedWords, ∀ i < pw.word.length,
          gcell cr.grid (cwPosOf pw i).1 (cwPosOf pw i).2 =
            some (pw.word.getD i ' ')) ∧
        ((∃ c, gcell cr.grid 0 c ≠ none) ∨ minR - minR2 = 1) ∧
        ((∃ c, gcell cr.grid ((cr.height : Int) - 1) c ≠ none) ∨ maxR2 - maxR = 1) ∧
        ((∃ r, gcell cr.grid r 0 ≠ none) ∨ minC - minC2 = 1) ∧
        ((∃ r, gcell cr.grid r ((cr.width : Int) - 1) ≠ none) ∨ maxC2 - maxC = 1) := by
  have hinv := generateCore_inv o width height ws (hst ▸ hne)
  rw [← hst] at hinv
  obtain ⟨hwf, hlets, hcov, -, hsrcs⟩ := hinv
  obtain ⟨pw0, hpw0⟩ := List.exists_mem_of_ne_nil _ hne
  obtain ⟨wi0, hwi0, hword0, -⟩ := hsrcs pw0 hpw0
  have hwlen0 : 0 < pw0.word.length := by
    rw [hword0]
    exact List.length_pos.mpr (hws wi0 hwi0)
  obtain ⟨hinB0, hlet0⟩ := hlets pw0 hpw0 0 hwlen0
  have hoccne : occList st ≠ [] := by
    intro hemp
    have hm : ((cwPosOf pw0 0).1, (cwPosOf pw0 0).2) ∈ occList st :=
      (occList_mem st _ _).mpr ⟨hinB0, by rw [hlet0]; exact Option.some_ne_none _⟩
    rw [hemp] at hm
    exact absurd hm (List.not_mem_nil _)
  obtain ⟨minR, maxR, minC, maxC, hbox, hcont, ha1, ha2, ha3, ha4⟩ :=
    boundingBox_some st hoccne
  have hcontg : ∀ r c : Int, gcell st.grid r c ≠ none →
      minR ≤ r ∧ r ≤ maxR ∧ minC ≤ c ∧ c ≤ maxC := by
    intro r c hrc
    have hin : inB st.height st.width r c := by
      by_contra hnin
      exact hrc (gcell_of_not_inB st.height st.width st.grid r c hwf hnin)
    exact hcont (r, c) ((occList_mem st r c).mpr ⟨hin, hrc⟩)
  obtain ⟨q1, hq1, hq1e⟩ := ha1
  obtain ⟨q2, hq2, hq2e⟩ := ha2
  obtain ⟨q3, hq3, hq3e⟩ := ha3
  obtain ⟨q4, hq4, hq4e⟩ := ha4
  obtain ⟨hq1in, hq1ne⟩ := (occList_mem st q1.1 q1.2).mp hq1
  obtain ⟨hq2in, hq2ne⟩ := (occList_mem st q2.1 q2.2).mp hq2
  obtain ⟨hq3in, hq3ne⟩ := (occList_mem st q3.1 q3.2).mp hq3
  obtain ⟨hq4in, hq4ne⟩ := (occList_mem st q4.1 q4.2).mp hq4
  have h0minR : 0 ≤ minR := hq1e ▸ hq1in.1
  have hmaxRlt : maxR < (st.height : Int) := hq2e ▸ hq2in.2.1
  have h0minC : 0 ≤ minC := hq3e ▸ hq3in.2.2.1
  have hmaxClt : maxC < (st.width : Int) := hq4e ▸ hq4in.2.2.2
  obtain ⟨-, hu2, -, -⟩ := hcont q1 hq1
  obtain ⟨-, -, hu3, -⟩ := hcont q4 hq4
  have hRle : minR ≤ maxR := by omega
  have hCle : minC ≤ maxC := by omega
  have hb1 : ∃ c, gcell st.grid minR c ≠ none := ⟨q1.2, by rw [← hq1e]; exact hq1ne⟩
  have hb2 : ∃ c, gcell st.grid maxR c ≠ none := ⟨q2.2, by rw [← hq2e]; exact hq2ne⟩
  have hb3 : ∃ r, gcell st.grid r minC ≠ none := ⟨q3.1, by rw [← hq3e]; exact hq3ne⟩
  have hb4 : ∃ r, gcell st.grid r maxC ≠ none := ⟨q4.1, by rw [← hq4e]; exact hq4ne⟩
  obtain ⟨hg, hh, hw, hp⟩ := crop_fields st 1 minR maxR minC maxC hbox
  simp only [Nat.cast_one] at hg hp
  rw [← hcr] at hg hh hw hp
  have hglen : st.grid.length = st.height := hwf.1
  have hlen1 : cr.grid.length =
      (min ((st.height : Int) - 1) (maxR + 1) + 1 - max 0 (minR - 1)).toNat := by
    rw [hg, List.length_map, List.length_take, List.length_drop, hglen]
    omega
  have hrowlen : ∀ y ∈ cr.grid, y.length =
      (min ((st.width : Int) - 1) (maxC + 1) + 1 - max 0 (minC - 1)).toNat := by
    intro y hy
    rw [hg] at hy
    rw [List.mem_map] at hy
    obtain ⟨rowl, hrl, hfy⟩ := hy
    have hrw : rowl.length = st.width :=
      hwf.2 rowl (List.mem_of_mem_drop (List.mem_of_mem_take hrl))
    rw [← hfy, List.length_take, List.length_drop, hrw]
    omega
  have hcrnempty : cr.grid ≠ [] := by
    intro hemp
    rw [hemp] at hlen1
    simp only [List.length_nil] at hlen1
    omega
  have hwv : cr.width =
      (min ((st.width : Int) - 1) (maxC + 1) + 1 - max 0 (minC - 1)).toNat := by
    cases hcg : cr.grid with
    | nil => exact absurd hcg hcrnempty
    | cons y ys =>
      rw [hw, hcg]
      simp only [List.headD_cons]
      exact hrowlen y (by rw [hcg]; exact List.mem_cons_self y ys)
  have hhv : cr.height =
      (min ((st.height : Int) - 1) (maxR + 1) + 1 - max 0 (minR - 1)).toNat := by
    rw [hh, hlen1]
  have hwfcr : WF cr.height cr.width cr.grid := by
    refine ⟨by rw [hh], ?_⟩
    intro rowl hrl
    rw [hwv]
    exact hrowlen rowl hrl
  have hwin : ∀ r c : Int, 0 ≤ r →
      r < min ((st.height : Int) - 1) (maxR + 1) + 1 - max 0 (minR - 1) →
      0 ≤ c → c < min ((st.width : Int) - 1) (maxC + 1) + 1 - max 0 (minC - 1) →
      gcell cr.grid r c =
        gcell st.grid (r + max 0 (minR - 1)) (c + max 0 (minC - 1)) := by
    intro r c hr0 hrlt hc0 hclt
    rw [hg]
    have hth := gcell_window st.grid (max 0 (minR - 1)).toNat (max 0 (minC - 1)).toNat
      ((min ((st.height : Int) - 1) (maxR + 1) + 1 - max 0 (minR - 1)).toNat)
      ((min ((st.width : Int) - 1) (maxC + 1) + 1 - max 0 (minC - 1)).toNat)
      r c hr0 (by omega) hc0 (by omega)
    rw [Int.toNat_of_nonneg (le_max_left 0 (minR - 1)),
      Int.toNat_of_nonneg (le_max_left 0 (minC - 1))] at hth
    exact hth
  have hhint : (cr.height : Int) =
      min ((st.height : Int) - 1) (maxR + 1) + 1 - max 0 (minR - 1) := by
    rw [hhv]
    omega
  have hwint : (cr.width : Int) =
      min ((st.width : Int) - 1) (maxC + 1) + 1 - max 0 (minC - 1) := by
    rw [hwv]
    omega
  have hlets2 : ∀ pw ∈ cr.placedWords, ∀ i < pw.word.length,
      gcell cr.grid (cwPosOf pw i).1 (cwPosOf pw i).2 =
        some (pw.word.getD i ' ') := by
    intro pw' hpw' i hi
    rw [hp] at hpw'
    rw [List.mem_map] at hpw'
    obtain ⟨pw, hpw, hshift⟩ := hpw'
    subst hshift
    rw [cwPosOf_shift]
    have hi' : i < pw.word.length := hi
    obtain ⟨hinB, hlet⟩ := hlets pw hpw i hi'
    have hoccc : gcell st.grid (cwPosOf pw i).1 (cwPosOf pw i).2 ≠ none := by
      rw [hlet]
      exact Option.some_ne_none _
    obtain ⟨w1, w2, w3, w4⟩ := hcontg _ _ hoccc
    have hwin' := hwin ((cwPosOf pw i).1 - max 0 (minR - 1))
      ((cwPosOf pw i).2 - max 0 (minC - 1)) (by omega) (by omega) (by omega) (by omega)
    rw [hwin']
    have e1 : (cwPosOf pw i).1 - max 0 (minR - 1) + max 0 (minR - 1) =
        (cwPosOf pw i).1 := by ring
    have e2 : (cwPosOf pw i).2 - max 0 (minC - 1) + max 0 (minC - 1) =
        (cwPosOf pw i).2 := by ring
    rw [e1, e2, hlet]
  have htop : (∃ c, gcell cr.grid 0 c ≠ none) ∨ minR - max 0 (minR - 1) = 1 := by
    by_cases hcl : minR - 1 < 0
    · left
      refine ⟨q1.2 - max 0 (minC - 1), ?_⟩
      obtain ⟨w1, w2, w3, w4⟩ := hcontg q1.1 q1.2 hq1ne
      have hwin' := hwin 0 (q1.2 - max 0 (minC - 1)) le_rfl (by omega) (by omega)
        (by omega)
      rw [hwin']
      have e0 : (0 : Int) + max 0 (minR - 1) = q1.1 := by omega
      have e2 : q1.2 - max 0 (minC - 1) + max 0 (minC - 1) = q1.2 := by ring
      rw [e0, e2]
      exact hq1ne
    · right
      omega
  have hbot : (∃ c, gcell cr.grid ((cr.height : Int) - 1) c ≠ none) ∨
      min ((st.height : Int) - 1) (maxR + 1) - maxR = 1 := by
    by_cases hcl : (st.height : Int) - 1 < maxR + 1
    · left
      refine ⟨q2.2 - max 0 (minC - 1), ?_⟩
      obtain ⟨w1, w2, w3, w4⟩ := hcontg q2.1 q2.2 hq2ne
      have hwin' := hwin ((cr.height : Int) - 1) (q2.2 - max 0 (minC - 1))
        (by omega) (by omega) (by omega) (by omega)
      rw [hwin']
      have e0 : (cr.height : Int) - 1 + max 0 (minR - 1) = q2.1 := by omega
      have e2 : q2.2 - max 0 (minC - 1) + max 0 (minC - 1) = q2.2 := by ring
      rw [e0, e2]
      exact hq2ne
    · right
      omega
  have hleft : (∃ r, gcell cr.grid r 0 ≠ none) ∨ minC - max 0 (minC - 1) = 1 := by
    by_cases hcl : minC - 1 < 0
    · left
      refine ⟨q3.1 - max 0 (minR - 1), ?_⟩
      obtain ⟨w1, w2, w3, w4⟩ := hcontg q3.1 q3.2 hq3ne
      have hwin' := hwin (q3.1 - max 0 (minR - 1)) 0 (by omega) (by omega) le_rfl
        (by omega)
      rw [hwin']
      have e0 : q3.1 - max 0 (minR - 1) + max 0 (minR - 1) = q3.1 := by ring
      have e2 : (0 : Int) + max 0 (minC - 1) = q3.2 := by omega
      rw [e0, e2]
      exact hq3ne
    · right
      omega
  have hright : (∃ r, gcell cr.grid r ((cr.width : Int) - 1) ≠ none) ∨
      min ((st.width : Int) - 1) (maxC + 1) - maxC = 1 := by
    by_cases hcl : (st.width : Int) - 1 < maxC + 1
    · left
      refine ⟨q4.1 - max 0 (minR - 1), ?_⟩
      obtain ⟨w1, w2, w3, w4⟩ := hcontg q4.1 q4.2 hq4ne
      have hwin' := hwin (q4.1 - max 0 (minR - 1)) ((cr.width : Int) - 1)
        (by omega) (by omega) (by omega) (by omega)
      rw [hwin']
      have e0 : q4.1 - max 0 (minR - 1) + max 0 (minR - 1) = q4.1 := by ring
      have e2 : (cr.width : Int) - 1 + max 0 (minC - 1) = q4.2 := by omega
      rw [e0, e2]
      exact hq4ne
    · right
      omega
  exact ⟨by rw [hcr, hst]; rfl, minR, maxR, minC, maxC, hbox, hcontg, hb1, hb2, hb3, hb4,
    max 0 (minR - 1), min ((st.height : Int) - 1) (maxR + 1),
    max 0 (minC - 1), min ((st.width : Int) - 1) (maxC + 1),
    rfl, rfl, rfl, rfl, hhint, hwint, hwfcr, hwin, hp, hlets2,
    htop, hbot, hleft, hright⟩

section
set_option allowUnsafeReducibility true
attribute [local semireducible] Rat.add Rat.mul Rat.div Rat.sub Rat.neg Rat.inv Rat.blt Rat.normalize
set_option maxRecDepth 100000 in
/-- Witness for C5: the concrete two-word crossword has a nonempty winning
layout whose bounding box exists and whose top content row is attained. -/
theorem c5_crop_witness :
    (generateCore oracleZ 3 3 cwWords).placedWords ≠ [] ∧
    ∃ minR maxR minC maxC : Int,
      boundingBox (generateCore oracleZ 3 3 cwWords) = some (minR, maxR, minC, maxC) ∧
      ∃ c, gcell (generateCore oracleZ 3 3 cwWords).grid minR c ≠ none :=
  ⟨by decide, by
    obtain ⟨-, minR, maxR, minC, maxC, hbox, -, hb1, -⟩ :=
      c5_crop oracleZ 3 3 cwWords _ _ rfl rfl (by decide) (by decide)
    exact ⟨minR, maxR, minC, maxC, hbox, hb1⟩⟩
end
end WordPuzzle
